import Mathlib

/-!
Verification development for the giza STARK prover core: a shallow embedding
of the Cairo-like VM runner (memory, step execution), the execution-trace
builder, the auxiliary-trace construction and the AIR constraint evaluator,
together with theorems settling the specification claims.

Field elements of the 252-bit base field (`core/src/field/f252`) are embedded
as `ZMod P`; machine indices are `Nat`.  Fallible operations (Rust panics and
asserts) are embedded as `Option`-valued functions returning `none` on the
panicking paths.
-/

namespace Giza

/-- Modulus of the base field: `p = 2^251 + 17 * 2^192 + 1`
(`core/src/field/f252/mod.rs`, `StarkField::MODULUS`). -/
def P : ℕ := 2 ^ 251 + 17 * 2 ^ 192 + 1

/-- Base field element (`BaseElement` in `core/src/field/f252/mod.rs`).
The canonical integer view `as_int` is `ZMod.val`. -/
abbrev Felt : Type := ZMod P

instance : NeZero P := ⟨by decide⟩

/-- Embedding of `FieldHelpers::to_u64` (`core/src/word/helpers.rs`): the low
64 bits of the canonical little-endian byte representation. -/
def toU64 (x : Felt) : ℕ := x.val % 2 ^ 64

/-- Embedding of `FieldHelpers::chunk_u16` (`core/src/word/helpers.rs`): the
`pos`-th 16-bit chunk of the canonical little-endian bytes, as a field
element. -/
def chunkU16 (x : Felt) (pos : ℕ) : Felt := (((x.val >>> (16 * pos)) % 2 ^ 16 : ℕ) : Felt)

/-- Embedding of `bias` (`core/src/word/mod.rs`): subtract `2^15`. -/
def bias (offset : Felt) : Felt := offset - (2 ^ 15 : Felt)

/-- Modelled from the spec: the flag/offset bit positions `POS_DST = 0`,
`POS_OP0 = 1`, `POS_OP1 = 2`, `POS_FLAGS = 48` and `NUM_FLAGS = 16` come from
`core/src/flags.rs`, which is not among the provided sources; the values are
fixed by spec §3 (offset/flag bit ranges of a word) and by the doc comments in
`core/src/word/mod.rs` ("The least significant 16 bits", "From the 32nd bit to
the 17th", "The most significant 16 bits"). -/
def POS_FLAGS : ℕ := 48

/-- Embedding of `FlagDecomposition::flag_at` for `Word`
(`core/src/word/mod.rs`): bit `POS_FLAGS + pos` of the canonical value,
as a natural number (the source wraps it in `Felt::from`; group decoders
immediately project it back out with `lsb`). -/
def flagAt (w : Felt) (pos : ℕ) : ℕ := (w.val >>> (POS_FLAGS + pos)) % 2

/-- Flag bit `pos` of a word as a field element (`Felt::from(bit)`). -/
def flagAtF (w : Felt) (pos : ℕ) : Felt := ((flagAt w pos : ℕ) : Felt)

/-- Embedding of `OffsetDecomposition::off_dst` (`core/src/word/mod.rs`). -/
def offDst (w : Felt) : Felt := bias (chunkU16 w 0)

/-- Embedding of `OffsetDecomposition::off_op0` (`core/src/word/mod.rs`). -/
def offOp0 (w : Felt) : Felt := bias (chunkU16 w 1)

/-- Embedding of `OffsetDecomposition::off_op1` (`core/src/word/mod.rs`). -/
def offOp1 (w : Felt) : Felt := bias (chunkU16 w 2)

/-- Embedding of `FlagGroupDecomposition::dst_reg`: `f_dst_fp`. -/
def dstReg (w : Felt) : ℕ := flagAt w 0

/-- Embedding of `FlagGroupDecomposition::op0_reg`: `f_op0_fp`. -/
def op0Reg (w : Felt) : ℕ := flagAt w 1

/-- Embedding of `FlagGroupDecomposition::op1_src`:
`4*f_op1_ap + 2*f_op1_fp + f_op1_val`. -/
def op1Src (w : Felt) : ℕ := 2 * (2 * flagAt w 4 + flagAt w 3) + flagAt w 2

/-- Embedding of `FlagGroupDecomposition::res_log`: `2*f_res_mul + f_res_add`. -/
def resLog (w : Felt) : ℕ := 2 * flagAt w 6 + flagAt w 5

/-- Embedding of `FlagGroupDecomposition::pc_up`:
`4*f_pc_jnz + 2*f_pc_rel + f_pc_abs`. -/
def pcUp (w : Felt) : ℕ := 2 * (2 * flagAt w 9 + flagAt w 8) + flagAt w 7

/-- Embedding of `FlagGroupDecomposition::ap_up`: `2*f_ap_one + f_ap_add`. -/
def apUp (w : Felt) : ℕ := 2 * flagAt w 11 + flagAt w 10

/-- Embedding of `FlagGroupDecomposition::opcode`:
`4*f_opc_aeq + 2*f_opc_ret + f_opc_call`. -/
def opcode (w : Felt) : ℕ := 2 * (2 * flagAt w 14 + flagAt w 13) + flagAt w 12

/-- Modelled from the spec: flag-group constant values from `core/src/flags.rs`
(not among the provided sources).  The values are fixed by spec §3
("Grouped flag values") and by the inline numeric comments at every match arm
of `runner/src/runner.rs` (e.g. `/*0*/ OP0_AP`, `/*4*/ PC_JNZ`). -/
def OP0_AP : ℕ := 0

/-- Flag-group constant, see `OP0_AP`. -/
def OP1_DBL : ℕ := 0

/-- Flag-group constant, see `OP0_AP`. -/
def OP1_VAL : ℕ := 1

/-- Flag-group constant, see `OP0_AP`. -/
def OP1_FP : ℕ := 2

/-- Flag-group constant, see `OP0_AP`. -/
def OP1_AP : ℕ := 4

/-- Flag-group constant, see `OP0_AP`. -/
def RES_ONE : ℕ := 0

/-- Flag-group constant, see `OP0_AP`. -/
def RES_ADD : ℕ := 1

/-- Flag-group constant, see `OP0_AP`. -/
def RES_MUL : ℕ := 2

/-- Flag-group constant, see `OP0_AP`. -/
def PC_SIZ : ℕ := 0

/-- Flag-group constant, see `OP0_AP`. -/
def PC_ABS : ℕ := 1

/-- Flag-group constant, see `OP0_AP`. -/
def PC_REL : ℕ := 2

/-- Flag-group constant, see `OP0_AP`. -/
def PC_JNZ : ℕ := 4

/-- Flag-group constant, see `OP0_AP`. -/
def AP_Z2 : ℕ := 0

/-- Flag-group constant, see `OP0_AP`. -/
def AP_ADD : ℕ := 1

/-- Flag-group constant, see `OP0_AP`. -/
def AP_ONE : ℕ := 2

/-- Flag-group constant, see `OP0_AP`. -/
def OPC_JMP_INC : ℕ := 0

/-- Flag-group constant, see `OP0_AP`. -/
def OPC_CALL : ℕ := 1

/-- Flag-group constant, see `OP0_AP`. -/
def OPC_RET : ℕ := 2

/-- Flag-group constant, see `OP0_AP`. -/
def OPC_AEQ : ℕ := 4

-- ===========================================================================
-- Memory (`runner/src/memory.rs`)
-- ===========================================================================

/-- Embedding of `Memory` (`runner/src/memory.rs`): the length of the public
memory and the full memory vector, `none` for uninitialized cells.  `Word` is
a transparent wrapper around a field element, so cells hold `Option Felt`. -/
structure Memory where
  codelen : ℕ
  data : List (Option Felt)
deriving Repr

/-- Embedding of `Memory::new`: a dummy zero word is prepended to the input,
and `codelen` counts the dummy word plus the input. -/
def Memory.new (input : List Felt) : Memory :=
  { codelen := input.length + 1
    data := ((0 : Felt) :: input).map some }

/-- Embedding of `Memory::get_codelen`. -/
def Memory.getCodelen (m : Memory) : ℕ := m.codelen

/-- Embedding of `Memory::size`. -/
def Memory.size (m : Memory) : ℕ := m.data.length

/-- Embedding of `Memory::resize`: extend with `none` slots so that `addr`
is in bounds. -/
def Memory.resize (m : Memory) (addr : ℕ) : Memory :=
  if m.size ≤ addr then
    { m with data := m.data ++ List.replicate (addr + 1 - m.size) none }
  else m

/-- Embedding of `Memory::write`: unconditionally store the value (the
source lowers the address with `to_u64` via the `IndexMut` impl, resizing
first).  Note there is no consistency check: an existing value is replaced. -/
def Memory.write (m : Memory) (addr : Felt) (elem : Felt) : Memory :=
  let m' := m.resize (toU64 addr)
  { m' with data := m'.data.set (toU64 addr) (some elem) }

/-- Embedding of `Memory::read`: the source resizes (appending `none` cells,
which does not change any stored value) and returns the cell content; with a
`getD ... none` lookup the resize is value-invisible, so the embedding is a
pure lookup. -/
def Memory.read (m : Memory) (addr : Felt) : Option Felt :=
  m.data.getD (toU64 addr) none

/-- Embedding of the gap scan inside `Memory::get_holes`: for each window of
two consecutive sorted accesses, when the difference is neither 0 nor 1 and
the left endpoint exceeds `codelen`, emit the strictly-between addresses. -/
def holesScan (codelen : ℕ) : List ℕ → List ℕ
  | a :: b :: rest =>
      (if b - a ≤ 1 then [] else
        if codelen < a then List.range' (a + 1) (b - a - 1) else []) ++
      holesScan codelen (b :: rest)
  | _ => []

/-- Embedding of `Memory::get_holes`: sort the canonical integer values of
the accesses and collect the missing strictly-between private addresses. -/
def Memory.getHoles (m : Memory) (vec : List Felt) : List Felt :=
  let accesses := List.insertionSort (· ≤ ·) (vec.map ZMod.val)
  (holesScan m.codelen accesses).map (fun (x : ℕ) => (x : Felt))

-- ===========================================================================
-- VM executor (`runner/src/runner.rs`, `Step`)
-- ===========================================================================

/-- Embedding of `RegisterState` (`core/src/lib.rs`). -/
structure RegisterState where
  pc : Felt
  ap : Felt
  fp : Felt
deriving Repr

/-- Embedding of `InstructionState` (`core/src/lib.rs`). -/
structure InstructionState where
  inst : Felt
  instSize : Felt
  dst : Option Felt
  op0 : Option Felt
  op1 : Option Felt
  res : Option Felt
  dstAddr : Felt
  op0Addr : Felt
  op1Addr : Felt
deriving Repr

/-- Embedding of `Step::inst`: the word at the current program counter;
`none` embeds the "pc points to None cell" panic. -/
def stepInst (mem : Memory) (curr : RegisterState) : Option Felt :=
  mem.read curr.pc

/-- Embedding of `Step::set_op0`: compute the first operand address and
fetch the operand. -/
def setOp0 (mem : Memory) (curr : RegisterState) : Option (Felt × Option Felt) := do
  let w ← stepInst mem curr
  let reg := if op0Reg w = OP0_AP then curr.ap else curr.fp
  let op0Addr := reg + offOp0 w
  pure (op0Addr, mem.read op0Addr)

/-- Embedding of `Step::set_op1`: compute the second operand address, the
operand and the instruction size; `none` embeds the panics on an invalid
`op1_src` flagset or a missing `op0` under double indexing. -/
def setOp1 (mem : Memory) (curr : RegisterState) (op0 : Option Felt) :
    Option (Felt × Option Felt × Felt) := do
  let w ← stepInst mem curr
  let (reg, size) ←
    if op1Src w = OP1_DBL then
      match op0 with
      | some v => some ((v, (1 : Felt)))
      | none => none
    else if op1Src w = OP1_VAL then some ((curr.pc, (2 : Felt)))
    else if op1Src w = OP1_FP then some ((curr.fp, (1 : Felt)))
    else if op1Src w = OP1_AP then some ((curr.ap, (1 : Felt)))
    else none
  let op1Addr := reg + offOp1 w
  pure (op1Addr, mem.read op1Addr, size)

/-- Embedding of `Step::set_res`: the value of the arithmetic result; `none`
embeds the panics on an invalid JNZ format, an invalid `res_log` flagset, an
invalid `pc_up` flagset, or missing operands under ADD/MUL. -/
def setRes (mem : Memory) (curr : RegisterState) (op0 op1 : Option Felt) :
    Option (Option Felt) := do
  let w ← stepInst mem curr
  if pcUp w = PC_JNZ then
    if resLog w = RES_ONE ∧ opcode w = OPC_JMP_INC ∧ apUp w ≠ AP_ADD then
      some (some (0 : Felt))
    else none
  else if pcUp w = PC_SIZ ∨ pcUp w = PC_ABS ∨ pcUp w = PC_REL then
    if resLog w = RES_ONE then some op1
    else if resLog w = RES_ADD then do
      let a ← op0
      let b ← op1
      some (some (a + b))
    else if resLog w = RES_MUL then do
      let a ← op0
      let b ← op1
      some (some (a * b))
    else none
  else none

/-- Embedding of `Step::set_dst`: compute the destination address and fetch
the destination operand. -/
def setDst (mem : Memory) (curr : RegisterState) : Option (Felt × Option Felt) := do
  let w ← stepInst mem curr
  let reg := if dstReg w = OP0_AP then curr.ap else curr.fp
  let dstAddr := reg + offDst w
  pure (dstAddr, mem.read dstAddr)

/-- Embedding of `Step::next_pc`: the next program counter by `pc_up`;
`none` embeds the panics on a missing operand or an invalid flagset. -/
def nextPc (mem : Memory) (curr : RegisterState) (size : Felt)
    (res dst op1 : Option Felt) : Option Felt := do
  let w ← stepInst mem curr
  if pcUp w = PC_SIZ then some (curr.pc + size)
  else if pcUp w = PC_ABS then res
  else if pcUp w = PC_REL then res.map (fun r => curr.pc + r)
  else if pcUp w = PC_JNZ then
    if dst = some (0 : Felt) then some (curr.pc + size)
    else op1.map (fun o => curr.pc + o)
  else none

/-- Embedding of `Step::next_apfp`: the next allocation and frame pointers
plus the operand updates `(next_ap, next_fp, op0_update, op1_update,
res_update, dst_update)`.  In the CALL branch the run-mode (`write = true`)
memory writes are commented out in the source, so run mode neither writes nor
checks anything; reconstruction mode (`write = false`) asserts that memory
already holds `fp` at `ap` and `pc + size` at `ap + 1` (a failing assert or
unwrap is embedded as `none`).  The AEQ fix-up likewise only asserts in
reconstruction mode. -/
def nextApFp (mem : Memory) (curr : RegisterState) (size : Felt)
    (res dst : Option Felt) (dstAddr op1Addr : Felt) (write : Bool) :
    Option (Felt × Felt × Option Felt × Option Felt × Option Felt × Option Felt) := do
  let w ← stepInst mem curr
  if opcode w = OPC_CALL then
    if write then
      pure ()
    else do
      let expectedA ← mem.read curr.ap
      let expectedB ← mem.read (curr.ap + 1)
      if expectedA = curr.fp ∧ expectedB = curr.pc + size then pure () else none
    let dstUpdate := mem.read curr.ap
    let op0Update := mem.read (curr.ap + 1)
    let nextFp := curr.ap + 2
    let nextAp ←
      if apUp w = AP_Z2 then some (curr.ap + 2)
      else none
    pure (nextAp, nextFp, op0Update, none, none, dstUpdate)
  else if opcode w = OPC_JMP_INC ∨ opcode w = OPC_RET ∨ opcode w = OPC_AEQ then do
    let nextAp ←
      if apUp w = AP_Z2 then some curr.ap
      else if apUp w = AP_ADD then res.map (fun r => curr.ap + r)
      else if apUp w = AP_ONE then some (curr.ap + 1)
      else none
    if opcode w = OPC_JMP_INC then
      pure (nextAp, curr.fp, none, none, none, none)
    else if opcode w = OPC_RET then do
      let d ← dst
      pure (nextAp, d, none, none, none, none)
    else do
      -- OPC_AEQ with the source fix-up on a missing res
      if res = none then do
        if write then pure ()
        else do
          let expectedA ← mem.read op1Addr
          let d ← dst
          if expectedA = d then pure () else none
        pure (nextAp, curr.fp, none, mem.read op1Addr, mem.read op1Addr, none)
      else do
        if write then pure ()
        else do
          let expectedA ← mem.read dstAddr
          let r ← res
          if expectedA = r then pure () else none
        pure (nextAp, curr.fp, none, none, none, mem.read dstAddr)
  else none

/-- Embedding of `Step::execute`: run the sub-steps in source order, apply
the operand updates, and produce the instruction state together with the next
register state (`step.next`). -/
def stepExecute (mem : Memory) (curr : RegisterState) (write : Bool) :
    Option (InstructionState × RegisterState) := do
  let w ← stepInst mem curr
  let (op0Addr, op0) ← setOp0 mem curr
  let (op1Addr, op1, size) ← setOp1 mem curr op0
  let res ← setRes mem curr op0 op1
  let (dstAddr, dst) ← setDst mem curr
  let pcNext ← nextPc mem curr size res dst op1
  let (apNext, fpNext, op0U, op1U, resU, dstU) ←
    nextApFp mem curr size res dst dstAddr op1Addr write
  pure
    ({ inst := w
       instSize := size
       dst := dstU.or dst
       op0 := op0U.or op0
       op1 := op1U.or op1
       res := resU.or res
       dstAddr := dstAddr
       op0Addr := op0Addr
       op1Addr := op1Addr },
     { pc := pcNext, ap := apNext, fp := fpNext })

/-- Concrete word used to exercise `next_pc`: a relative jump with an
immediate second operand (`f_op1_val` and `f_pc_rel` set, `off_dst = 0`,
`off_op0 = -1`, `off_op1 = 1` in biased form). -/
def wJmpRel : Felt :=
  ((0x8000 + 0x7fff * 2 ^ 16 + 0x8001 * 2 ^ 32 + 0x104 * 2 ^ 48 : ℕ) : Felt)


/-- Concrete CALL word: `f_op1_val`, `f_pc_rel` and `f_opc_call` set,
`off_dst = 0`, `off_op0 = 0`, `off_op1 = 1` in biased form. -/
def wCall : Felt :=
  ((0x8000 + 0x8000 * 2 ^ 16 + 0x8001 * 2 ^ 32 + 0x1104 * 2 ^ 48 : ℕ) : Felt)

/-- Concrete memory for the CALL scenario: word at address 1, immediate 5 at
address 2, the value 99 (distinct from the frame pointer) at address 3. -/
def memCall : Memory := Memory.new [wCall, 5, 99]

-- ===========================================================================
-- Per-step state buffers (`runner/src/runner.rs`, `State`)
-- ===========================================================================

/-- Embedding of `State` (`runner/src/runner.rs`): per-column buffers for the
trace.  The widths are `FLAG_TRACE_WIDTH = 16`, `RES_TRACE_WIDTH = 1`,
`MEM_P_TRACE_WIDTH = 2`, `MEM_A_TRACE_WIDTH = 4`, `MEM_V_TRACE_WIDTH = 4`,
`OFF_X_TRACE_WIDTH = 3` (`core/src/lib.rs`). -/
structure State where
  flags : List (List Felt)
  res : List (List Felt)
  memP : List (List Felt)
  memA : List (List Felt)
  memV : List (List Felt)
  offsets : List (List Felt)
deriving Repr

/-- Set entry `row` of column `i` in a list of columns. -/
def setCell (cols : List (List Felt)) (i row : ℕ) (v : Felt) : List (List Felt) :=
  cols.set i ((cols.getD i []).set row v)

/-- Embedding of `State::new`: zeroed columns of the given length. -/
def State.new (len : ℕ) : State :=
  { flags := List.replicate 16 (List.replicate len 0)
    res := List.replicate 1 (List.replicate len 0)
    memP := List.replicate 2 (List.replicate len 0)
    memA := List.replicate 4 (List.replicate len 0)
    memV := List.replicate 4 (List.replicate len 0)
    offsets := List.replicate 3 (List.replicate len 0) }

/-- Embedding of `State::set_register_state`: `mem_a[0] = pc`,
`mem_p[0] = ap`, `mem_p[1] = fp` at the given step. -/
def State.setRegister (s : State) (step : ℕ) (r : RegisterState) : State :=
  { s with
    memA := setCell s.memA 0 step r.pc
    memP := setCell (setCell s.memP 0 step r.ap) 1 step r.fp }

/-- Embedding of `State::set_instruction_state`: flag bits into columns 0-15,
res into `res[0]`, instruction and operand values into `mem_v`, operand
addresses into `mem_a[1..3]`, decoded offsets into the offset columns.
Missing (`None`) operand values are stored as zero (`unwrap_or(ZERO)`). -/
def State.setInstruction (s : State) (step : ℕ) (i : InstructionState) : State :=
  { s with
    flags := (List.range 16).foldl
      (fun cs k => setCell cs k step (flagAtF i.inst k)) s.flags
    res := setCell s.res 0 step (i.res.getD 0)
    memV := setCell (setCell (setCell (setCell s.memV 0 step i.inst)
      1 step (i.dst.getD 0)) 2 step (i.op0.getD 0)) 3 step (i.op1.getD 0)
    memA := setCell (setCell (setCell s.memA 1 step i.dstAddr)
      2 step i.op0Addr) 3 step i.op1Addr
    offsets := setCell (setCell (setCell s.offsets 0 step (offDst i.inst))
      1 step (offOp0 i.inst)) 2 step (offOp1 i.inst) }

-- ===========================================================================
-- Trace assembly (`runner/src/trace.rs`)
-- ===========================================================================

/-- Embedding of `VirtualColumn::to_column`: cycle through the subcolumns,
appending one value per subcolumn for each row index of the first subcolumn. -/
def toColumn (subcols : List (List Felt)) : List Felt :=
  (List.range (subcols.headD []).length).flatMap
    (fun n => subcols.map (fun c => c.getD n 0))

/-- Embedding of `VirtualColumn::to_columns` for a single subcolumn split
round-robin over `k` output columns (element `j` goes to output column
`j % k`). -/
def toColumnsOne {α : Type} (k : ℕ) (l : List α) : List (List α) :=
  (List.range k).map (fun i =>
    l.enum.filterMap (fun p => if p.1 % k = i then some p.2 else none))

/-- Fuel-driven helper computing the least power of two that is at least
`n`. -/
def nextPow2Aux : ℕ → ℕ → ℕ
  | 0, _ => 1
  | fuel + 1, n => if n ≤ 1 then 1 else 2 * nextPow2Aux fuel ((n + 1) / 2)

/-- Embedding of `usize::next_power_of_two` as used by `resize_to_pow2`. -/
def nextPow2 (n : ℕ) : ℕ := nextPow2Aux n n

/-- Target length used by `resize_to_pow2`: the maximum over all columns of
the next power of two of the column length. -/
def maxPow2Len (cols : List (List Felt)) : ℕ :=
  (cols.map (fun c => nextPow2 c.length)).foldr max 0

/-- Embedding of `resize_to_pow2` (`runner/src/trace.rs`): every column is
resized to the maximum next-power-of-two length, repeating its last value. -/
def resizeToPow2 (cols : List (List Felt)) : List (List Felt) :=
  cols.map (fun c =>
    List.take (maxPow2Len cols) (c ++ List.replicate (maxPow2Len cols - c.length) (c.getLastD 0)))

/-- Embedding of `Builtin` (`core/src/lib.rs`). -/
inductive Builtin where
  | output (len : ℕ)
  | rangeCheck
deriving Repr

/-- Embedding of the offset gap fill in `ExecutionTrace::new`: for every
window of two consecutive sorted offsets whose difference is neither 0 nor 1,
emit the strictly-between integers. -/
def rcGaps : List ℕ → List ℕ
  | a :: b :: rest =>
      (if b - a ≤ 1 then [] else List.range' (a + 1) (b - a - 1)) ++ rcGaps (b :: rest)
  | _ => []

/-- Embedding of `ExecutionTrace` (`runner/src/trace.rs`): the main-segment
matrix as a list of columns, plus the retained metadata. -/
structure ExecutionTrace where
  columns : List (List Felt)
  memory : Memory
  rcMin : ℕ
  rcMax : ℕ
  numSteps : ℕ
  builtins : List Builtin
deriving Repr

/-- Derived column `t0` of `ExecutionTrace::new`: `f_pc_jnz * dst` per
executed step (flag column 9, `mem_v` column 1). -/
def derivedT0 (numSteps : ℕ) (state : State) : List Felt :=
  (List.range numSteps).map (fun step =>
    (state.flags.getD 9 []).getD step 0 * (state.memV.getD 1 []).getD step 0)

/-- Derived column `t1` of `ExecutionTrace::new`: `t0 * res`, where `res` is
replaced by `dst⁻¹` when `f_pc_jnz ≠ 0` and `dst ≠ 0`. -/
def derivedT1 (numSteps : ℕ) (state : State) : List Felt :=
  (List.range numSteps).map (fun step =>
    let fJnz := (state.flags.getD 9 []).getD step 0
    let dst := (state.memV.getD 1 []).getD step 0
    let res := if fJnz ≠ 0 ∧ dst ≠ 0 then dst⁻¹ else (state.res.getD 0 []).getD step 0
    (fJnz * dst) * res)

/-- Derived column `mul` of `ExecutionTrace::new`: `op0 * op1` per step. -/
def derivedMul (numSteps : ℕ) (state : State) : List Felt :=
  (List.range numSteps).map (fun step =>
    (state.memV.getD 2 []).getD step 0 * (state.memV.getD 3 []).getD step 0)

/-- Extension rows appended to the memory virtual columns by
`ExecutionTrace::new`: the memory holes followed by `codelen` dummy zero
entries for the public memory. -/
def memExtension (state : State) (memory : Memory) : List Felt :=
  memory.getHoles (toColumn state.memA) ++ List.replicate memory.codelen (0 : Felt)

/-- The four `mem_a` columns after the hole/public-memory extension. -/
def memAColumns (state : State) (memory : Memory) : List (List Felt) :=
  List.zipWith (fun c e => c ++ e) state.memA (toColumnsOne 4 (memExtension state memory))

/-- The four `mem_v` columns after the extension (zero values). -/
def memVColumns (state : State) (memory : Memory) : List (List Felt) :=
  List.zipWith (fun c e => c ++ List.replicate e.length (0 : Felt)) state.memV
    (toColumnsOne 4 (memExtension state memory))

/-- The biased offset virtual column of `ExecutionTrace::new`: every recorded
offset plus `2^15`. -/
def rcColumnOf (state : State) : List Felt :=
  (toColumn state.offsets).map (fun x => x + (2 : Felt) ^ 15)

/-- The sorted biased offsets (as canonical integers). -/
def rcSortedOf (state : State) : List ℕ :=
  List.insertionSort (· ≤ ·) ((rcColumnOf state).map ZMod.val)

/-- `rc_min`: the first sorted biased offset. -/
def rcMinOf (state : State) : ℕ := (rcSortedOf state).headD 0

/-- `rc_max`: the last sorted biased offset. -/
def rcMaxOf (state : State) : ℕ := (rcSortedOf state).getLastD 0

/-- The biased offset virtual column after the gap fill. -/
def rcColumnFilled (state : State) : List Felt :=
  rcColumnOf state ++ (rcGaps (rcSortedOf state)).map (fun (x : ℕ) => (x : Felt))

/-- The three physical offset columns (round-robin split of the gap-filled
offset virtual column). -/
def offsetColumns (state : State) : List (List Felt) :=
  toColumnsOne 3 (rcColumnFilled state)

/-- The selector column of `ExecutionTrace::new`: ones over the executed
steps, with entry `num_steps - 1` set to zero. -/
def selectorColumn (numSteps : ℕ) : List Felt :=
  (List.replicate numSteps (1 : Felt)).set (numSteps - 1) 0

/-- The 34 main-trace columns before the power-of-two resize, in layout
order: flags (16), res (1), `mem_p` (2), `mem_a` (4), `mem_v` (4), offsets
(3), derived (3), selector (1). -/
def mainColumns (numSteps : ℕ) (state : State) (memory : Memory) : List (List Felt) :=
  state.flags ++ state.res ++ state.memP ++ memAColumns state memory ++
    memVColumns state memory ++ offsetColumns state ++
    [derivedT0 numSteps state, derivedT1 numSteps state, derivedMul numSteps state] ++
    [selectorColumn numSteps]

/-- Embedding of `ExecutionTrace::new`.  The `Layouter` is created with
`frame_len = 1` and `add_columns` is always called with `chunk_size = None`
(that is, 1), under which the chunked copy places each subcolumn into the
trace verbatim; the layout step is therefore the concatenation of the column
groups in source order, followed by the power-of-two resize. -/
def ExecutionTrace.new (numSteps : ℕ) (state : State) (memory : Memory)
    (builtins : List Builtin) : ExecutionTrace :=
  { columns := resizeToPow2 (mainColumns numSteps state memory)
    memory := memory
    rcMin := rcMinOf state
    rcMax := rcMaxOf state
    numSteps := numSteps
    builtins := builtins }

/-- Embedding of `Trace::length` (`Matrix::num_rows`). -/
def ExecutionTrace.length (t : ExecutionTrace) : ℕ := (t.columns.headD []).length

/-- Embedding of `Matrix::get(col, row)` on the main segment. -/
def ExecutionTrace.get (t : ExecutionTrace) (col row : ℕ) : Felt :=
  (t.columns.getD col []).getD row 0

/-- Embedding of `ExecutionTrace::get_program_mem`: addresses `0..codelen`
with the stored values. -/
def ExecutionTrace.getProgramMem (t : ExecutionTrace) : List ℕ × List (Option Felt) :=
  (List.range t.memory.codelen, t.memory.data.take t.memory.codelen)

/-- Embedding of `ExecutionTrace::get_output_mem`: for the first `Output`
builtin, the `len` addresses starting at the final `ap` (main column
`AP = 17` at row `num_steps - 1`). -/
def ExecutionTrace.getOutputMem (t : ExecutionTrace) : List ℕ × List (Option Felt) :=
  match t.builtins.findSome?
      (fun b => match b with | .output len => some len | _ => none) with
  | some len =>
      let ptrStart := (t.get 17 (t.numSteps - 1)).val
      let addrs := List.range' ptrStart len
      (addrs, addrs.map (fun i => t.memory.data.getD i none))
  | none => ([], [])

/-- Embedding of `ExecutionTrace::get_public_mem`: program memory followed by
output memory. -/
def ExecutionTrace.getPublicMem (t : ExecutionTrace) : List ℕ × List (Option Felt) :=
  ((t.getProgramMem).1 ++ (t.getOutputMem).1, (t.getProgramMem).2 ++ (t.getOutputMem).2)

-- ===========================================================================
-- Program execution (`runner/src/runner.rs`, `Program::execute`)
-- ===========================================================================

/-- Embedding of the `while !end` loop of `Program::execute`: run a step from
the pending register state, record it, and stop when the next program counter
reaches unallocated memory (`curr.ap <= next.pc`).  The Rust loop is unbounded;
`fuel` bounds the recursion and returning `none` on exhaustion never happens
for the terminating executions considered here. -/
def runLoop (mem : Memory) : ℕ → State → ℕ → RegisterState →
    Option (State × ℕ × RegisterState)
  | 0, _, _, _ => none
  | fuel + 1, state, n, pending => do
      let curr := pending
      let (instState, stepNext) ← stepExecute mem curr true
      let state2 := (state.setRegister n curr).setInstruction n instState
      if curr.ap.val ≤ stepNext.pc.val then
        some (state2, n + 1, curr)
      else
        runLoop mem fuel state2 (n + 1) stepNext

/-- Embedding of `Program::new` plus `Program::execute`: initial registers
`(pc, ap, ap)`, state buffers sized by the initial memory, and the final
trace assembled by `ExecutionTrace::new` (no builtins on this path). -/
def programExecute (mem : Memory) (pc ap : ℕ) (fuel : ℕ) : Option ExecutionTrace := do
  let (state, steps, _fin) ← runLoop mem fuel (State.new mem.size) 0
    ⟨(pc : Felt), (ap : Felt), (ap : Felt)⟩
  pure (ExecutionTrace.new steps state mem [])

-- ===========================================================================
-- Public inputs (`prover/src/lib.rs` and `air/src/lib.rs`)
-- ===========================================================================

/-- Embedding of `PublicInputs` (`air/src/lib.rs`). -/
structure PublicInputs where
  init : RegisterState
  fin : RegisterState
  rcMin : ℕ
  rcMax : ℕ
  mem : List (Option Felt)
  numSteps : ℕ
deriving Repr

/-- Embedding of `ExecutionProver::get_pub_inputs` (`prover/src/lib.rs`):
`last_step` is `trace.length() - 1`, the last row of the padded trace; the
initial and final registers are read from the `pc` column
(`MEM_A_TRACE_OFFSET = 19`) and the `ap` column (`MEM_P_TRACE_OFFSET = 17`)
at rows 0 and `last_step`, with `fp` set to the same value as `ap`. -/
def getPubInputs (t : ExecutionTrace) : PublicInputs :=
  let lastStep := t.length - 1
  let pcInit := t.get 19 0
  let apInit := t.get 17 0
  let pcFin := t.get 19 lastStep
  let apFin := t.get 17 lastStep
  { init := ⟨pcInit, apInit, apInit⟩
    fin := ⟨pcFin, apFin, apFin⟩
    rcMin := t.rcMin
    rcMax := t.rcMax
    mem := (t.getPublicMem).2
    numSteps := t.numSteps }

/-- Embedding of `ProcessorAir::get_assertions` (`air/src/lib.rs`): single
assertions `(column, row, value)` pinning the `pc` and `ap` columns at row 0
to the initial registers and at row `num_steps - 1` to the final registers. -/
def getAssertions (p : PublicInputs) : List (ℕ × ℕ × Felt) :=
  [(19, 0, p.init.pc), (19, p.numSteps - 1, p.fin.pc),
   (17, 0, p.init.ap), (17, p.numSteps - 1, p.fin.ap)]

-- ===========================================================================
-- A concrete two-word program (relative jump over an immediate)
-- ===========================================================================

/-- Concrete memory holding the program `[wJmpRel, 10]`: the jump word at
address 1 and the immediate 10 at address 2. -/
def memJmp : Memory := Memory.new [wJmpRel, 10]

/-- The trace built by executing `memJmp` from `pc = 1`, `ap = fp = 3`; the
run takes exactly one step (the jump target 11 is past `ap`). -/
def traceJmp : ExecutionTrace :=
  (programExecute memJmp 1 3 4).getD ⟨[], memJmp, 0, 0, 0, []⟩

-- ===========================================================================
-- AIR register constraints (`air/src/constraints.rs`)
-- ===========================================================================

/-- Row accessor of the AIR frame row used by `constraints.rs` (`TraceRow`):
the row is a flat slice; the accessor methods fix the indices (`pc = 0`,
`ap = 1`, `fp = 2`, flags at `3 + i`, `inst = 19`, offsets 20-22, addresses
23-25, `dst = 26`, `op0 = 27`, `op1 = 28`, `res = 29`, `t0 = 30`,
`t1 = 31`). -/
def rowGet {E : Type} [Zero E] (r : List E) (i : ℕ) : E := r.getD i 0

/-- Result slots of `evaluate_register_constraints`
(`air/src/constraints.rs`): the values written at indices `NEXT_AP = 20`
through `T1 = 25` of the evaluation result. -/
structure RegisterEval (E : Type) where
  nextAp : E
  nextFp : E
  nextPc1 : E
  nextPc2 : E
  t0 : E
  t1 : E

/-- The draft `NEXT_PC_2` expression computed by the source before it is
overwritten (`self[NEXT_PC_2] = E::from(0u8); // FIXME`). -/
def nextPc2Draft {E : Type} [CommRing E] (curr next : List E) : E :=
  rowGet curr 30 * (rowGet next 0 - (rowGet curr 0 + rowGet curr 28)) +
    (1 - rowGet curr 12) * rowGet next 0 -
    (1 - rowGet curr 10 - rowGet curr 11 - rowGet curr 12) *
      (rowGet curr 0 + (rowGet curr 5 + 1)) +
    rowGet curr 10 * rowGet curr 29 +
    rowGet curr 11 * (rowGet curr 0 + rowGet curr 29)

/-- Embedding of `evaluate_register_constraints` (`air/src/constraints.rs`):
the six register-constraint slots.  `inst_size` is `f_op1_val + 1`; the
`NEXT_PC_2` slot is computed as `nextPc2Draft` and then overwritten with zero
(the source marks this with a `FIXME`); the `T0` slot is
`f_pc_jnz * dst - t0` and the `T1` slot is `t0 * res` (with no `- t1`
term). -/
def evaluateRegisterConstraints {E : Type} [CommRing E] (curr next : List E) :
    RegisterEval E :=
  { nextAp := rowGet curr 1 + rowGet curr 13 * rowGet curr 29 + rowGet curr 14 +
      rowGet curr 15 * 2 - rowGet next 1
    nextFp := rowGet curr 16 * rowGet curr 26 + rowGet curr 15 * (rowGet curr 1 + 2) +
      (1 - rowGet curr 16 - rowGet curr 15) * rowGet curr 2 - rowGet next 2
    nextPc1 := (rowGet curr 31 - rowGet curr 12) *
      (rowGet next 0 - (rowGet curr 0 + (rowGet curr 5 + 1)))
    nextPc2 := (fun _ => (0 : E)) (nextPc2Draft curr next)
    t0 := rowGet curr 12 * rowGet curr 26 - rowGet curr 30
    t1 := rowGet curr 30 * rowGet curr 29 }

-- ===========================================================================
-- Auxiliary segments (`runner/src/trace.rs`)
-- ===========================================================================

/-- The memory-address virtual column read back from the main trace by
`build_aux_segment_mem` (columns `MEM_A_TRACE_RANGE = 19..23`). -/
def memAuxA (t : ExecutionTrace) : List Felt :=
  toColumn ((t.columns.drop 19).take 4)

/-- The memory-value virtual column read back from the main trace by
`build_aux_segment_mem` (columns `MEM_V_TRACE_RANGE = 23..27`). -/
def memAuxV (t : ExecutionTrace) : List Felt :=
  toColumn ((t.columns.drop 23).take 4)

/-- Write the given values at consecutive positions starting at `start`
(the `for (i, (n, x)) in ... .enumerate()` replacement loop of
`build_aux_segment_mem`). -/
def setConsecutive {α : Type} (start : ℕ) (vals : List α) (l : List α) : List α :=
  match vals with
  | [] => l
  | x :: xs => setConsecutive (start + 1) xs (l.set start x)

/-- Embedding of the `(a_replaced, v_replaced)` construction of
`build_aux_segment_mem`: copies of the virtual columns in which, starting at
position `l = a.len() - pub_a.len() - 1`, the public-memory addresses and
values are written in index order (an absent public value would panic through
`unwrap`; it is embedded as 0, and every public value is present for the
traces considered here). -/
def memAuxReplaced (t : ExecutionTrace) : List Felt × List Felt :=
  let a := memAuxA t
  let v := memAuxV t
  let pubA := (t.getPublicMem).1
  let pubV := (t.getPublicMem).2
  let l := a.length - pubA.length - 1
  (setConsecutive l (pubA.map (fun (n : ℕ) => (n : Felt))) a,
   setConsecutive l ((pubA.zip pubV).map (fun p => (p.2).getD 0)) v)

/-- Comparison by canonical integer value, the sort key of
`indices.sort_by_key(|&i| a[i].as_int())`. -/
def valLe (x y : Felt) : Prop := x.val ≤ y.val

instance : DecidableRel valLe := fun x y => Nat.decLe x.val y.val

instance : IsTrans Felt valLe := ⟨fun _ _ _ h h' => Nat.le_trans h h'⟩

instance : IsTotal Felt valLe := ⟨fun x y => Nat.le_total x.val y.val⟩

/-- The offset virtual column read back from the main trace by
`build_aux_segment_rc` (columns `OFF_X_TRACE_RANGE = 27..30`). -/
def rcVirtualColumn (t : ExecutionTrace) : List Felt :=
  toColumn ((t.columns.drop 27).take 3)

/-- The sorted offset virtual column `a_prime` of `build_aux_segment_rc`:
a stable sort of the offset virtual column by canonical integer value
(equal keys are equal field elements, so any correct sort produces this
list). -/
def rcAPrime (t : ExecutionTrace) : List Felt :=
  List.insertionSort valLe (rcVirtualColumn t)

/-- The running permutation product of `build_aux_segment_rc`:
`p[i] = p[i-1] * (z - a[i]) / (z - a_prime[i])`, with `p[-1]` taken as 1 so
that `p[0] = (z - a[0]) / (z - a_prime[0])`. -/
def runningProd {E : Type} [Field E] (z : E) : List E → List E → E → List E
  | a :: as, b :: bs, acc =>
      let acc' := acc * (z - a) / (z - b)
      acc' :: runningProd z as bs acc'
  | _, _, _ => []

/-- The full `p` virtual column of `build_aux_segment_rc`, over an extension
field `E` reached from the base field by `φ` (the source `E: From<Felt>`
conversion). -/
def rcProductColumn {E : Type} [Field E] (φ : Felt → E) (z : E)
    (t : ExecutionTrace) : List E :=
  runningProd z ((rcVirtualColumn t).map φ) ((rcAPrime t).map φ) 1

/-- The auxiliary range-check segment columns of `build_aux_segment_rc`:
`a_prime` split into `A_RC_PRIME_WIDTH = 3` columns and `p` split into
`P_RC_WIDTH = 3` columns (for a power-of-two main trace, the final
`resize_to_pow2` leaves the lengths unchanged). -/
def buildAuxSegmentRc {E : Type} [Field E] (φ : Felt → E) (z : E)
    (t : ExecutionTrace) : List (List E) :=
  toColumnsOne 3 ((rcAPrime t).map φ) ++ toColumnsOne 3 (rcProductColumn φ z t)

-- ===========================================================================
-- Concrete run of the two-word jump program
-- ===========================================================================

/-- The state buffers recorded while executing `memJmp` (used to instantiate
the general trace-builder theorems on a concrete execution). -/
def stateJmp : State :=
  ((runLoop memJmp 4 (State.new memJmp.size) 0 ⟨1, 3, 3⟩).map
    (fun r => r.1)).getD (State.new 0)

instance fact_prime_101 : Fact (Nat.Prime 101) := ⟨by norm_num⟩

-- ===========================================================================
-- Theorems
-- ===========================================================================

-- ===========================================================================
-- C6: Memory::write silently replaces - it does not fail
-- ===========================================================================

theorem memory_resize_lt (m : Memory) (a : ℕ) : a < (m.resize a).size := by
  unfold Memory.resize Memory.size
  split
  · simp only [List.length_append, List.length_replicate]
    omega
  · omega

/-- C6 counterexample: writing the value 7 to address 1 of a memory whose
address 1 already holds the value 5 does not fail (the write is total and
returns a memory); the stored value is silently replaced by 7.  This refutes
the claim that such a write fails with `MemoryInconsistent`. -/
theorem write_existing_address_replaces :
    ((Memory.new [5]).read 1 = some 5) ∧
    ((Memory.new [5]).write 1 7).read 1 = some 7 ∧ (7 : Felt) ≠ 5 := by
  refine ⟨by decide, by decide, by decide⟩

/-- C6 (amended): for every memory and every address, `Memory::write` always
succeeds and makes the address hold the written value, regardless of any value
previously stored there; no `MemoryInconsistent` failure exists on this path
(consistency with observed memory is asserted elsewhere, by the reconstruction
mode of the runner). -/
theorem memory_write_always_stores (m : Memory) (addr v : Felt) :
    (m.write addr v).read addr = some v := by
  unfold Memory.write Memory.read
  have h : toU64 addr < (m.resize (toU64 addr)).data.length :=
    memory_resize_lt m (toU64 addr)
  simp only [List.getD, List.get?_eq_getElem?]
  rw [List.getElem?_set_self]
  · rfl
  · simpa using h

-- ===========================================================================
-- C9: Memory::new layout
-- ===========================================================================

/-- C9: `Memory::new` on an input of `n` field elements produces a memory of
size `n + 1`; address 0 holds the word 0, the public-memory length
`get_codelen` is `n + 1`, and `read(0)` returns `some 0`. -/
theorem memory_new_layout (input : List Felt) :
    (Memory.new input).size = input.length + 1 ∧
    (Memory.new input).getCodelen = input.length + 1 ∧
    (Memory.new input).read 0 = some 0 := by
  refine ⟨?_, rfl, ?_⟩
  · simp [Memory.new, Memory.size]
  · simp [Memory.new, Memory.read, toU64, ZMod.val_zero, List.getD]

-- ===========================================================================
-- C7: next_pc semantics
-- ===========================================================================

/-- C7: for every step whose decoded `pc_up` group is one of the four defined
values and whose required operands are present, the executor computes the next
program counter as: `pc + size` for SIZ; `res` for ABS; `pc + res` for REL;
and for JNZ, `pc + size` when `dst = 0` and `pc + op1` otherwise. -/
theorem next_pc_cases (mem : Memory) (curr : RegisterState) (w size : Felt)
    (res dst op1 : Option Felt) (hw : mem.read curr.pc = some w) :
    (pcUp w = PC_SIZ → nextPc mem curr size res dst op1 = some (curr.pc + size)) ∧
    (pcUp w = PC_ABS → ∀ r, res = some r →
      nextPc mem curr size res dst op1 = some r) ∧
    (pcUp w = PC_REL → ∀ r, res = some r →
      nextPc mem curr size res dst op1 = some (curr.pc + r)) ∧
    (pcUp w = PC_JNZ →
      (dst = some 0 → nextPc mem curr size res dst op1 = some (curr.pc + size)) ∧
      (∀ d o, dst = some d → d ≠ 0 → op1 = some o →
        nextPc mem curr size res dst op1 = some (curr.pc + o))) := by
  refine ⟨fun h => ?_, fun h r hr => ?_, fun h r hr => ?_, fun h => ⟨fun hd => ?_, ?_⟩⟩
  · simp [nextPc, stepInst, hw, h]
  · simp [nextPc, stepInst, hw, h, hr, PC_ABS, PC_SIZ]
  · simp [nextPc, stepInst, hw, h, hr, PC_REL, PC_SIZ, PC_ABS]
  · simp [nextPc, stepInst, hw, h, hd, PC_JNZ, PC_SIZ, PC_ABS, PC_REL]
  · intro d o hd hdz ho
    have : ¬ dst = some (0 : Felt) := by
      rw [hd]; simpa using hdz
    simp [nextPc, stepInst, hw, h, this, ho, PC_JNZ, PC_SIZ, PC_ABS, PC_REL]


/-- C7 witness: `next_pc_cases` applied to a concrete relative-jump step. -/
theorem next_pc_cases_witness :
    (Memory.new [wJmpRel, 10]).read 1 = some wJmpRel ∧
    pcUp wJmpRel = PC_REL ∧
    nextPc (Memory.new [wJmpRel, 10]) ⟨1, 3, 3⟩ 2 (some 10) none (some 10) =
      some ((1 : Felt) + 10) :=
  ⟨by decide, by decide,
    (next_pc_cases (Memory.new [wJmpRel, 10]) ⟨1, 3, 3⟩ wJmpRel 2
        (some 10) none (some 10) (by decide)).2.2.1 (by decide) 10 rfl⟩

-- ===========================================================================
-- C1: CALL semantics of next_apfp
-- ===========================================================================

/-- C1 counterexample: a CALL step executed in run mode (`write = true`)
succeeds even though memory at `ap` holds 99 and not the current `fp = 7`;
since the run-mode writes in the source are commented out, the step touches no
memory, so after the step `memory[ap]` still differs from `fp`.  This refutes
the claim that run mode leaves `memory[ap] = fp` and `memory[ap+1] = pc +
inst_size`. -/
theorem call_run_mode_counterexample :
    opcode wCall = OPC_CALL ∧
    (stepExecute memCall ⟨1, 3, 7⟩ true).isSome = true ∧
    memCall.read 3 = some 99 ∧ ((99 : Felt) ≠ (7 : Felt)) := by
  refine ⟨by decide, by decide, by decide, by decide⟩

/-- C1 (amended): for a step whose decoded opcode group is CALL, both modes
require `ap_up = Z2` (any other `ap_up` value panics).  Run mode performs no
memory write and no assertion: it succeeds unconditionally, leaving memory
untouched (the writes of `memory[ap] = fp` and `memory[ap+1] = pc + size` are
commented out in the source), merely reading the two cells into the
`dst`/`op0` updates, and returns `next_ap = next_fp = ap + 2`.  Reconstruction
mode asserts that memory already holds `fp` at `ap` and `pc + size` at
`ap + 1`, failing otherwise. -/
theorem call_next_apfp_semantics (mem : Memory) (curr : RegisterState)
    (w size : Felt) (res dst : Option Felt) (dstAddr op1Addr : Felt)
    (hw : mem.read curr.pc = some w) (hop : opcode w = OPC_CALL) :
    (apUp w = AP_Z2 →
      nextApFp mem curr size res dst dstAddr op1Addr true =
        some (curr.ap + 2, curr.ap + 2, mem.read (curr.ap + 1), none, none,
          mem.read curr.ap) ∧
      nextApFp mem curr size res dst dstAddr op1Addr false =
        (if mem.read curr.ap = some curr.fp ∧
            mem.read (curr.ap + 1) = some (curr.pc + size) then
          some (curr.ap + 2, curr.ap + 2, mem.read (curr.ap + 1), none, none,
            mem.read curr.ap)
        else none)) ∧
    (apUp w ≠ AP_Z2 → ∀ b, nextApFp mem curr size res dst dstAddr op1Addr b = none) := by
  constructor
  · intro hap
    constructor
    · simp [nextApFp, stepInst, hw, hop, hap]
    · simp only [nextApFp, stepInst, hw, Option.bind_eq_bind, Option.some_bind, hop,
        if_pos rfl, Bool.false_eq_true, if_false, hap]
      rcases hA : mem.read curr.ap with _ | a
      · simp
      · rcases hB : mem.read (curr.ap + 1) with _ | b
        · simp
        · by_cases hab : a = curr.fp ∧ b = curr.pc + size
          · simp [hab.1, hab.2]
          · have : ¬ (some a = some curr.fp ∧ some b = some (curr.pc + size)) := by
              simpa using hab
            simp only [if_neg this]
            have : ¬ (a = curr.fp ∧ b = curr.pc + size) := hab
            simp [this]
  · intro hap b
    cases b <;> simp [nextApFp, stepInst, hw, hop, hap]

/-- C1 witness: `call_next_apfp_semantics` applied to the concrete CALL
scenario (`memCall`, registers `pc = 1`, `ap = 3`, `fp = 7`). -/
theorem call_next_apfp_semantics_witness :
    memCall.read 1 = some wCall ∧ opcode wCall = OPC_CALL ∧ apUp wCall = AP_Z2 ∧
    nextApFp memCall ⟨1, 3, 7⟩ 2 (some 5) (some 99) 3 2 true =
      some ((3 : Felt) + 2, (3 : Felt) + 2, memCall.read ((3 : Felt) + 1), none, none,
        memCall.read 3) :=
  ⟨by decide, by decide, by decide,
    ((call_next_apfp_semantics memCall ⟨1, 3, 7⟩ wCall 2 (some 5) (some 99) 3 2
        (by decide) (by decide)).1 (by decide)).1⟩


-- ===========================================================================
-- C2: get_pub_inputs reads the final registers from the wrong row
-- ===========================================================================

set_option maxRecDepth 100000 in
/-- C2: evaluation of the code at the failing input.  Executing the two-word
program takes one step, so the last executed row is 0, whose `pc` is 1 and
`ap` is 3.  `get_pub_inputs` instead serialises the registers found at row
`trace.length() - 1 = 3` of the padded trace, giving `fin.pc = 0` and
`fin.ap = 0`.  The boundary assertions generated by `get_assertions`, which
pin the `pc` and `ap` columns at row `num_steps - 1` to those serialised
values, are therefore not satisfied by the very trace the prover built. -/
theorem pub_inputs_final_register_bug :
    (programExecute memJmp 1 3 4).isSome = true ∧
    traceJmp.numSteps = 1 ∧ traceJmp.length = 4 ∧
    traceJmp.get 19 0 = 1 ∧ traceJmp.get 17 0 = 3 ∧
    (getPubInputs traceJmp).fin.pc = 0 ∧
    (getPubInputs traceJmp).fin.ap = 0 ∧
    (getPubInputs traceJmp).fin.pc ≠ traceJmp.get 19 (traceJmp.numSteps - 1) ∧
    (19, traceJmp.numSteps - 1, (getPubInputs traceJmp).fin.pc) ∈
      getAssertions (getPubInputs traceJmp) ∧
    traceJmp.get 19 (traceJmp.numSteps - 1) ≠ (getPubInputs traceJmp).fin.pc := by
  refine ⟨by decide, by decide, by decide, by decide, by decide, by decide, by decide,
    by decide, by decide, by decide⟩

-- ===========================================================================
-- List and power-of-two helper lemmas
-- ===========================================================================

theorem nextPow2Aux_ge : ∀ (fuel n : ℕ), n ≤ fuel → n ≤ nextPow2Aux fuel n := by
  intro fuel
  induction fuel with
  | zero =>
    intro n h
    have : n = 0 := Nat.le_zero.mp h
    subst this
    simp [nextPow2Aux]
  | succ f ih =>
    intro n h
    unfold nextPow2Aux
    by_cases h1 : n ≤ 1
    · simp only [if_pos h1]
      omega
    · simp only [if_neg h1]
      have h2 : (n + 1) / 2 ≤ f := by omega
      have h3 := ih ((n + 1) / 2) h2
      omega

theorem nextPow2_ge (n : ℕ) : n ≤ nextPow2 n := nextPow2Aux_ge n n le_rfl

theorem le_foldr_max {l : List ℕ} {x : ℕ} (hx : x ∈ l) : x ≤ l.foldr max 0 := by
  induction l with
  | nil => cases hx
  | cons a t ih =>
    rcases List.mem_cons.mp hx with h | h
    · subst h; exact le_max_left _ _
    · exact le_trans (ih h) (le_max_right _ _)

theorem length_le_maxPow2Len {cols : List (List Felt)} {c : List Felt} (h : c ∈ cols) :
    c.length ≤ maxPow2Len cols :=
  le_trans (nextPow2_ge _) (le_foldr_max (List.mem_map_of_mem _ h))

theorem getD_append_lt {α : Type} (l l' : List α) (d : α) :
    ∀ (n : ℕ), n < l.length → (l ++ l').getD n d = l.getD n d := by
  induction l with
  | nil => intro n h; simp at h
  | cons a t ih =>
    intro n h
    cases n with
    | zero => rfl
    | succ m =>
      simp only [List.cons_append, List.getD_cons_succ]
      exact ih m (by simpa using h)

theorem getD_append_ge {α : Type} (l l' : List α) (d : α) :
    ∀ (n : ℕ), l.length ≤ n → (l ++ l').getD n d = l'.getD (n - l.length) d := by
  induction l with
  | nil => intro n _; simp
  | cons a t ih =>
    intro n h
    cases n with
    | zero => simp at h
    | succ m =>
      simp only [List.cons_append, List.getD_cons_succ, List.length_cons]
      rw [ih m (by simpa using h)]
      congr 1
      omega

theorem getD_replicate_self {α : Type} (k j : ℕ) (x : α) :
    (List.replicate k x).getD j x = x := by
  induction k generalizing j with
  | zero => rfl
  | succ n ih =>
    cases j with
    | zero => rfl
    | succ m => simp only [List.replicate_succ, List.getD_cons_succ]; exact ih m

theorem getD_replicate_lt {α : Type} (k j : ℕ) (x d : α) (h : j < k) :
    (List.replicate k x).getD j d = x := by
  rw [List.getD_eq_getElem _ _ (by simpa using h)]
  exact List.getElem_replicate ..

theorem resizeToPow2_getD (cols : List (List Felt)) (i : ℕ) (h : i < cols.length) :
    (resizeToPow2 cols).getD i [] =
      List.take (maxPow2Len cols)
        (cols.getD i [] ++ List.replicate (maxPow2Len cols - (cols.getD i []).length)
          ((cols.getD i []).getLastD 0)) := by
  unfold resizeToPow2
  rw [List.getD_eq_getElem _ _ (by simpa using h), List.getElem_map,
    List.getD_eq_getElem _ _ h]

theorem memAColumns_length (s : State) (mem : Memory) (ha : s.memA.length = 4) :
    (memAColumns s mem).length = 4 := by
  simp [memAColumns, toColumnsOne, ha]

theorem memVColumns_length (s : State) (mem : Memory) (hv : s.memV.length = 4) :
    (memVColumns s mem).length = 4 := by
  simp [memVColumns, toColumnsOne, hv]

theorem offsetColumns_length (s : State) : (offsetColumns s).length = 3 := by
  simp [offsetColumns, toColumnsOne]

theorem mainColumns_length (n : ℕ) (s : State) (mem : Memory)
    (hf : s.flags.length = 16) (hr : s.res.length = 1) (hp : s.memP.length = 2)
    (ha : s.memA.length = 4) (hv : s.memV.length = 4) :
    (mainColumns n s mem).length = 34 := by
  simp [mainColumns, memAColumns_length s mem ha, memVColumns_length s mem hv,
    offsetColumns_length, hf, hr, hp]

theorem mainColumns_getD33 (n : ℕ) (s : State) (mem : Memory)
    (hf : s.flags.length = 16) (hr : s.res.length = 1) (hp : s.memP.length = 2)
    (ha : s.memA.length = 4) (hv : s.memV.length = 4) :
    (mainColumns n s mem).getD 33 [] = selectorColumn n := by
  unfold mainColumns
  have hA : (s.flags ++ s.res ++ s.memP ++ memAColumns s mem ++ memVColumns s mem ++
      offsetColumns s ++ [derivedT0 n s, derivedT1 n s, derivedMul n s]).length = 33 := by
    simp [hf, hr, hp, memAColumns_length s mem ha, memVColumns_length s mem hv,
      offsetColumns_length]
  rw [getD_append_ge _ _ _ _ hA.le, hA]
  rfl

theorem selector_mem_mainColumns (n : ℕ) (s : State) (mem : Memory) :
    selectorColumn n ∈ mainColumns n s mem :=
  List.mem_append_right _ (List.mem_singleton_self _)

theorem selectorColumn_succ (m : ℕ) :
    selectorColumn (m + 1) = List.replicate m (1 : Felt) ++ [0] := by
  induction m with
  | zero => rfl
  | succ k ih =>
    simp only [selectorColumn, Nat.add_sub_cancel] at ih ⊢
    rw [List.replicate_succ, List.set_cons_succ, ih, List.replicate_succ]
    rfl

-- ===========================================================================
-- C4: the selector column
-- ===========================================================================

set_option maxRecDepth 100000 in
/-- C4 counterexample: on the one-step execution of the two-word jump
program, row 0 is an executed row (`num_steps = 1`), yet the selector column
(column 33) holds 0 there, not 1: the trace builder zeroes the selector at
row `num_steps - 1`. -/
theorem selector_claim_counterexample :
    traceJmp.numSteps = 1 ∧ traceJmp.get 33 0 = 0 ∧ (0 : Felt) ≠ 1 := by
  refine ⟨by decide, by decide, by decide⟩

/-- C4 (amended): in the main trace produced by the trace builder, the
selector column (column 33) equals 1 at rows 0 through `num_steps - 2` and 0
at row `num_steps - 1` (the final executed row, whose outgoing transition
would reach into padding) as well as at every later row (padding and
public-memory rows). -/
theorem selector_column_values (n : ℕ) (s : State) (mem : Memory) (b : List Builtin)
    (hf : s.flags.length = 16) (hr : s.res.length = 1) (hp : s.memP.length = 2)
    (ha : s.memA.length = 4) (hv : s.memV.length = 4) (hn : 1 ≤ n) :
    ∀ i, ((ExecutionTrace.new n s mem b).columns.getD 33 []).getD i 0 =
      if i + 1 < n then 1 else 0 := by
  obtain ⟨m, rfl⟩ : ∃ m, n = m + 1 := ⟨n - 1, by omega⟩
  intro i
  have hcols : (ExecutionTrace.new (m + 1) s mem b).columns =
      resizeToPow2 (mainColumns (m + 1) s mem) := rfl
  rw [hcols, resizeToPow2_getD _ 33
      (by rw [mainColumns_length (m + 1) s mem hf hr hp ha hv]; norm_num),
    mainColumns_getD33 _ _ _ hf hr hp ha hv, selectorColumn_succ]
  have hTle : m + 1 ≤ maxPow2Len (mainColumns (m + 1) s mem) := by
    have h1 := length_le_maxPow2Len (selector_mem_mainColumns (m + 1) s mem)
    rw [selectorColumn_succ] at h1
    simpa using h1
  set T := maxPow2Len (mainColumns (m + 1) s mem) with hT
  have hlast : ((List.replicate m (1 : Felt)) ++ [0]).getLastD 0 = 0 := by
    simp
  rw [hlast]
  have hlen : (List.replicate m (1 : Felt) ++ [0]).length = m + 1 := by simp
  rw [hlen]
  have hjoin : (List.replicate m (1 : Felt) ++ [0]) ++
      List.replicate (T - (m + 1)) (0 : Felt) =
      List.replicate m (1 : Felt) ++ List.replicate (T - m) (0 : Felt) := by
    rw [List.append_assoc]
    congr 1
    have h2 : T - m = (T - (m + 1)) + 1 := by omega
    rw [h2, List.replicate_succ]
    rfl
  rw [hjoin]
  rw [List.take_of_length_le (by simp; omega)]
  by_cases hi : i < m
  · rw [getD_append_lt _ _ _ _ (by simpa using hi), getD_replicate_lt _ _ _ _ hi]
    have h3 : i + 1 < m + 1 := by omega
    simp [h3]
  · rw [getD_append_ge _ _ _ _ (by simpa using not_lt.mp hi)]
    rw [List.length_replicate, getD_replicate_self]
    have h3 : ¬ (i + 1 < m + 1) := by omega
    simp [h3]

/-- C4 witness: `selector_column_values` applied to the recorded state of
the concrete one-step execution, evaluated at row 0. -/
theorem selector_column_values_witness :
    (stateJmp.flags.length = 16 ∧ stateJmp.res.length = 1 ∧
      stateJmp.memP.length = 2 ∧ stateJmp.memA.length = 4 ∧
      stateJmp.memV.length = 4 ∧ 1 ≤ 1) ∧
    ((ExecutionTrace.new 1 stateJmp memJmp []).columns.getD 33 []).getD 0 0 =
      if 0 + 1 < 1 then 1 else 0 :=
  ⟨⟨by decide, by decide, by decide, by decide, by decide, by decide⟩,
    selector_column_values 1 stateJmp memJmp [] (by decide) (by decide) (by decide)
      (by decide) (by decide) (by decide) 0⟩

-- ===========================================================================
-- C5: public-memory replacement window in the memory auxiliary segment
-- ===========================================================================

theorem setConsecutive_getD {α : Type} (d : α) :
    ∀ (vals : List α) (start : ℕ) (l : List α), start + vals.length ≤ l.length →
      ∀ j, (setConsecutive start vals l).getD j d =
        if start ≤ j ∧ j < start + vals.length then vals.getD (j - start) d
        else l.getD j d := by
  intro vals
  induction vals with
  | nil =>
    intro start l _ j
    simp only [setConsecutive, List.length_nil, Nat.add_zero]
    have h1 : ¬ (start ≤ j ∧ j < start) := by omega
    rw [if_neg h1]
  | cons x xs ih =>
    intro start l h j
    simp only [setConsecutive]
    rw [ih (start + 1) (l.set start x)
      (by simp only [List.length_set]; simp at h; omega)]
    by_cases hj : start + 1 ≤ j ∧ j < start + 1 + xs.length
    · rw [if_pos hj, if_pos (by simp only [List.length_cons]; omega)]
      have h2 : j - start = (j - (start + 1)) + 1 := by omega
      rw [h2, List.getD_cons_succ]
    · rw [if_neg hj]
      by_cases hj2 : start ≤ j ∧ j < start + (x :: xs).length
      · have hjs : j = start := by simp only [List.length_cons] at hj2; omega
        subst hjs
        rw [if_pos (by simp only [List.length_cons]; omega)]
        have hlt : j < (l.set j x).length := by
          simp only [List.length_set]; simp at h; omega
        rw [List.getD_eq_getElem _ _ hlt, Nat.sub_self, List.getD_cons_zero]
        exact List.getElem_set_self _
      · rw [if_neg hj2]
        have hne : start ≠ j := by simp only [List.length_cons] at hj hj2; omega
        simp only [List.getD_eq_getElem?_getD, List.getElem?_set_ne hne]

set_option maxRecDepth 400000 in
/-- C5 counterexample: on the trace of the one-step jump program, the memory
virtual columns have 16 virtual positions and the public memory has 3 entries
(addresses 0, 1, 2).  The claim says the last 3 positions (13, 14, 15) are
overwritten, so position 15 would receive the last public value 10; in fact
the replacement window starts at position `16 - 3 - 1 = 12`, position 15 is
left at its original value 0, and the last public value lands at position
14. -/
theorem mem_aux_replaced_counterexample :
    (memAuxA traceJmp).length = 16 ∧
    (traceJmp.getPublicMem).1.length = 3 ∧
    (traceJmp.getPublicMem).2.getD 2 none = some 10 ∧
    (memAuxReplaced traceJmp).2.getD 15 0 = 0 ∧ ((0 : Felt) ≠ 10) ∧
    (memAuxReplaced traceJmp).2.getD 14 0 = 10 := by
  refine ⟨by decide, by decide, by decide, by decide, by decide, by decide⟩

/-- C5 (amended): the pre-sort columns `(a_replace, v_replace)` built by
`build_aux_segment_mem` equal the main-trace virtual columns `(a, v)` at
every position except a window of `|public memory|` consecutive positions
starting at `l = |a| - |public memory| - 1` (that is, the window ending at
the next-to-last position, not the last), which are overwritten, in index
order, with the true public-memory (address, value) pairs. -/
theorem mem_aux_replaced_values (t : ExecutionTrace)
    (h : (t.getPublicMem).1.length + 1 ≤ (memAuxA t).length)
    (hvl : (t.getPublicMem).2.length = (t.getPublicMem).1.length)
    (hav : (memAuxV t).length = (memAuxA t).length) :
    ∀ j,
      ((memAuxReplaced t).1.getD j 0 =
        if (memAuxA t).length - (t.getPublicMem).1.length - 1 ≤ j ∧
            j < (memAuxA t).length - 1 then
          ((t.getPublicMem).1.map (fun (n : ℕ) => (n : Felt))).getD
            (j - ((memAuxA t).length - (t.getPublicMem).1.length - 1)) 0
        else (memAuxA t).getD j 0) ∧
      ((memAuxReplaced t).2.getD j 0 =
        if (memAuxA t).length - (t.getPublicMem).1.length - 1 ≤ j ∧
            j < (memAuxA t).length - 1 then
          (((t.getPublicMem).1.zip (t.getPublicMem).2).map
            (fun p => (p.2).getD 0)).getD
            (j - ((memAuxA t).length - (t.getPublicMem).1.length - 1)) 0
        else (memAuxV t).getD j 0) := by
  intro j
  have hza : ((t.getPublicMem).1.map (fun (n : ℕ) => (n : Felt))).length =
      (t.getPublicMem).1.length := by rw [List.length_map]
  have hzv : (((t.getPublicMem).1.zip (t.getPublicMem).2).map
      (fun p => (p.2).getD 0)).length = (t.getPublicMem).1.length := by
    rw [List.length_map, List.length_zip, hvl, Nat.min_self]
  constructor
  · rw [show (memAuxReplaced t).1 = setConsecutive
        ((memAuxA t).length - (t.getPublicMem).1.length - 1)
        ((t.getPublicMem).1.map (fun (n : ℕ) => (n : Felt))) (memAuxA t) from rfl]
    rw [setConsecutive_getD _ _ _ _ (by rw [hza]; omega)]
    rw [hza]
    have hwin : (memAuxA t).length - (t.getPublicMem).1.length - 1 +
        (t.getPublicMem).1.length = (memAuxA t).length - 1 := by omega
    rw [hwin]
  · rw [show (memAuxReplaced t).2 = setConsecutive
        ((memAuxA t).length - (t.getPublicMem).1.length - 1)
        (((t.getPublicMem).1.zip (t.getPublicMem).2).map (fun p => (p.2).getD 0))
        (memAuxV t) from rfl]
    rw [setConsecutive_getD _ _ _ _ (by rw [hzv, hav]; omega)]
    rw [hzv]
    have hwin : (memAuxA t).length - (t.getPublicMem).1.length - 1 +
        (t.getPublicMem).1.length = (memAuxA t).length - 1 := by omega
    rw [hwin]

set_option maxRecDepth 400000 in
/-- C5 witness: `mem_aux_replaced_values` applied to the trace of the
one-step jump program at virtual position 12, the start of the replacement
window. -/
theorem mem_aux_replaced_values_witness :
    ((traceJmp.getPublicMem).1.length + 1 ≤ (memAuxA traceJmp).length ∧
      (traceJmp.getPublicMem).2.length = (traceJmp.getPublicMem).1.length ∧
      (memAuxV traceJmp).length = (memAuxA traceJmp).length) ∧
    ((memAuxReplaced traceJmp).1.getD 12 0 =
      if (memAuxA traceJmp).length - (traceJmp.getPublicMem).1.length - 1 ≤ 12 ∧
          12 < (memAuxA traceJmp).length - 1 then
        ((traceJmp.getPublicMem).1.map (fun (n : ℕ) => (n : Felt))).getD
          (12 - ((memAuxA traceJmp).length - (traceJmp.getPublicMem).1.length - 1)) 0
      else (memAuxA traceJmp).getD 12 0) :=
  ⟨⟨by decide, by decide, by decide⟩,
    (mem_aux_replaced_values traceJmp (by decide) (by decide) (by decide) 12).1⟩

-- ===========================================================================
-- C3: the T0 and T1 constraint slots
-- ===========================================================================

/-- C3 counterexample: a frame row with `res = 1` (index 29), `t0 = 1`
(index 30) and `t1 = 1` (index 31) satisfies `t1 = t0 * res`, so by the claim
the T1 slot would be zero; the evaluator writes `t0 * res = 1` there instead
(the `- t1` term is absent from the source). -/
theorem t1_slot_counterexample :
    rowGet (List.replicate 29 (0 : Felt) ++ [1, 1, 1]) 31 =
      rowGet (List.replicate 29 (0 : Felt) ++ [1, 1, 1]) 30 *
        rowGet (List.replicate 29 (0 : Felt) ++ [1, 1, 1]) 29 ∧
    (evaluateRegisterConstraints (List.replicate 29 (0 : Felt) ++ [1, 1, 1])
      (List.replicate 29 (0 : Felt) ++ [1, 1, 1])).t1 = 1 ∧
    (1 : Felt) ≠ 0 := by
  refine ⟨by decide, by decide, by decide⟩

/-- C3 (amended): for every two-row frame, the transition evaluator writes
into the T0 slot the value `f_pc_jnz * dst - t0` (zero exactly when
`t0 = f_pc_jnz * dst` holds on the current row), but into the T1 slot the
value `t0 * res` with no `- t1` term: the T1 slot is zero exactly when
`t0 * res = 0`, regardless of the value of `t1`. -/
theorem register_constraint_t0_t1_slots {E : Type} [CommRing E] (curr next : List E) :
    (evaluateRegisterConstraints curr next).t0 =
      rowGet curr 12 * rowGet curr 26 - rowGet curr 30 ∧
    ((evaluateRegisterConstraints curr next).t0 = 0 ↔
      rowGet curr 30 = rowGet curr 12 * rowGet curr 26) ∧
    (evaluateRegisterConstraints curr next).t1 = rowGet curr 30 * rowGet curr 29 ∧
    ((evaluateRegisterConstraints curr next).t1 = 0 ↔
      rowGet curr 30 * rowGet curr 29 = 0) := by
  refine ⟨rfl, ?_, rfl, Iff.rfl⟩
  rw [show (evaluateRegisterConstraints curr next).t0 =
    rowGet curr 12 * rowGet curr 26 - rowGet curr 30 from rfl]
  rw [sub_eq_zero]
  exact eq_comm

-- ===========================================================================
-- Sorted-list helper lemmas for the range-check claims
-- ===========================================================================

theorem headD_mem {α : Type} {l : List α} (h : l ≠ []) (d : α) : l.headD d ∈ l := by
  cases l with
  | nil => exact absurd rfl h
  | cons a t => exact List.mem_cons_self a t

theorem getLastD_mem {α : Type} : ∀ {l : List α}, l ≠ [] → ∀ (d : α), l.getLastD d ∈ l
  | [], h => absurd rfl h
  | [a], _ => fun d => by simp
  | a :: b :: t, _ => fun d => by
      rw [List.getLastD_cons]
      exact List.mem_cons_of_mem a (getLastD_mem (List.cons_ne_nil b t) a)

theorem getLastD_cons_eq {α : Type} : ∀ (t : List α) (b d d2 : α),
    (b :: t).getLastD d = (b :: t).getLastD d2
  | [], _, _, _ => rfl
  | c :: t2, b, d, d2 => by
      simp only [List.getLastD_cons]

theorem sorted_headD_le {l : List ℕ} (hs : List.Sorted (· ≤ ·) l) {y : ℕ}
    (hy : y ∈ l) : l.headD 0 ≤ y := by
  cases l with
  | nil => cases hy
  | cons a t =>
    rcases List.mem_cons.mp hy with h | h
    · subst h; exact le_rfl
    · exact List.rel_of_sorted_cons hs y h

theorem sorted_le_getLastD : ∀ {l : List ℕ}, List.Sorted (· ≤ ·) l →
    ∀ {y : ℕ}, y ∈ l → ∀ (d : ℕ), y ≤ l.getLastD d
  | [], _, _, hy => absurd hy (List.not_mem_nil _)
  | [a], _, y, hy => fun d => by
      simp at hy
      simp [hy]
  | a :: b :: t, hs, y, hy => fun d => by
      rw [List.getLastD_cons]
      rcases List.mem_cons.mp hy with h | h
      · subst h
        have hb : b ≤ (b :: t).getLastD y :=
          sorted_le_getLastD hs.of_cons (List.mem_cons_self b t) y
        exact le_trans (List.rel_of_sorted_cons hs b (List.mem_cons_self b t)) hb
      · exact sorted_le_getLastD hs.of_cons h a

theorem rcGaps_bounds : ∀ (l : List ℕ), List.Sorted (· ≤ ·) l →
    ∀ k ∈ rcGaps l, l.headD 0 ≤ k ∧ k ≤ l.getLastD 0
  | [], _, k, hk => by cases hk
  | [a], _, k, hk => by cases hk
  | a :: b :: t, hs, k, hk => by
      rw [rcGaps] at hk
      rcases List.mem_append.mp hk with h | h
      · have hab : b - a ≤ 1 → False := by
          intro hle
          simp [hle] at h
        by_cases hle : b - a ≤ 1
        · exact absurd hle hab
        · simp only [if_neg hle] at h
          rw [List.mem_range'] at h
          obtain ⟨i, hi, hki⟩ := h
          constructor
          · simp only [List.headD]; omega
          · rw [List.getLastD_cons]
            have hb : b ≤ (b :: t).getLastD a :=
              sorted_le_getLastD hs.of_cons (List.mem_cons_self b t) a
            omega
      · have := rcGaps_bounds (b :: t) hs.of_cons k h
        constructor
        · have hab : a ≤ b := List.rel_of_sorted_cons hs b (List.mem_cons_self b t)
          simp only [List.headD] at this ⊢
          omega
        · rw [List.getLastD_cons, getLastD_cons_eq t b a 0]
          exact this.2

theorem sorted_between_mem : ∀ (l : List ℕ), List.Sorted (· ≤ ·) l → l ≠ [] →
    ∀ k, l.headD 0 ≤ k → k ≤ l.getLastD 0 → k ∈ l ∨ k ∈ rcGaps l
  | [], _, h, _, _, _ => absurd rfl h
  | [a], _, _, k, hlo, hhi => by
      simp only [List.headD] at hlo
      simp only [List.getLastD_cons, List.getLastD_nil] at hhi
      left
      simp
      omega
  | a :: b :: t, hs, _, k, hlo, hhi => by
      simp only [List.headD] at hlo
      by_cases hka : k ≤ a
      · left
        have : k = a := le_antisymm hka hlo
        simp [this]
      · by_cases hkb : k < b
        · right
          rw [rcGaps]
          have hgap : ¬ (b - a ≤ 1) := by omega
          apply List.mem_append_left
          rw [if_neg hgap, List.mem_range']
          exact ⟨k - (a + 1), by omega, by omega⟩
        · have hrec := sorted_between_mem (b :: t) hs.of_cons (List.cons_ne_nil b t) k
            (by simp only [List.headD]; omega)
            (by rw [List.getLastD_cons, getLastD_cons_eq t b a 0] at hhi; exact hhi)
          rcases hrec with h | h
          · exact Or.inl (List.mem_cons_of_mem a h)
          · right
            rw [rcGaps]
            exact List.mem_append_right _ h

theorem enumFrom_snd_mem {α : Type} : ∀ (l : List α) (n : ℕ) (p : ℕ × α),
    p ∈ List.enumFrom n l → p.2 ∈ l
  | [], _, _, hp => absurd hp (List.not_mem_nil _)
  | a :: t, n, p, hp => by
      rw [List.enumFrom] at hp
      rcases List.mem_cons.mp hp with h | h
      · subst h; exact List.mem_cons_self a t
      · exact List.mem_cons_of_mem a (enumFrom_snd_mem t (n + 1) p h)

theorem mem_enumFrom_of_getElem {α : Type} : ∀ (l : List α) (n i : ℕ)
    (h : i < l.length), (n + i, l[i]) ∈ List.enumFrom n l
  | [], _, i, h => absurd h (by simp)
  | a :: t, n, 0, _ => by
      rw [List.enumFrom]
      exact List.mem_cons_self _ _
  | a :: t, n, i + 1, h => by
      rw [List.enumFrom]
      apply List.mem_cons_of_mem
      have := mem_enumFrom_of_getElem t (n + 1) i (by simpa using h)
      simpa [Nat.add_assoc, Nat.add_comm 1 i] using this

theorem mem_of_mem_toColumnsOne {α : Type} {k : ℕ} {l : List α} {c : List α}
    (hc : c ∈ toColumnsOne k l) {x : α} (hx : x ∈ c) : x ∈ l := by
  rw [toColumnsOne, List.mem_map] at hc
  obtain ⟨i, _, rfl⟩ := hc
  rw [List.mem_filterMap] at hx
  obtain ⟨p, hp, hcond⟩ := hx
  have hx2 : p.2 = x := by
    by_cases hmod : p.1 % k = i
    · simpa [hmod] using hcond
    · simp [hmod] at hcond
  rw [← hx2]
  exact enumFrom_snd_mem l 0 p hp

theorem mem_toColumnsOne_getD {α : Type} {k : ℕ} (hk : 0 < k) (l : List α)
    (i : ℕ) (hi : i < l.length) :
    l[i] ∈ (toColumnsOne k l).getD (i % k) [] := by
  have hik : i % k < k := Nat.mod_lt i hk
  rw [toColumnsOne, List.getD_eq_getElem _ _ (by simpa using hik), List.getElem_map,
    List.getElem_range]
  rw [List.mem_filterMap]
  refine ⟨(i, l[i]), ?_, by simp⟩
  have := mem_enumFrom_of_getElem l 0 i hi
  simpa using this

theorem toColumnsOne_getD_mem {α : Type} {k : ℕ} (i : ℕ) (hik : i < k) (l : List α) :
    (toColumnsOne k l).getD i [] ∈ toColumnsOne k l := by
  rw [List.getD_eq_getElem _ _ (by simp [toColumnsOne, hik])]
  exact List.getElem_mem _

-- ===========================================================================
-- Membership in the padded offset columns of the built trace
-- ===========================================================================

theorem pad_mem_subset {c : List Felt} (hc : c ≠ []) (T k : ℕ) {x : Felt}
    (hx : x ∈ List.take T (c ++ List.replicate k (c.getLastD 0))) : x ∈ c := by
  have h2 := List.take_subset T _ hx
  rcases List.mem_append.mp h2 with h | h
  · exact h
  · rw [List.eq_of_mem_replicate h]
    exact getLastD_mem hc 0

theorem mem_pad_of_mem {c : List Felt} {x : Felt} (hx : x ∈ c) (T k : ℕ)
    (hT : c.length ≤ T) :
    x ∈ List.take T (c ++ List.replicate k (c.getLastD 0)) := by
  obtain ⟨i, hi, hxe⟩ := List.mem_iff_getElem.mp hx
  apply List.mem_iff_getElem.mpr
  have hlen : i < (List.take T (c ++ List.replicate k (c.getLastD 0))).length := by
    rw [List.length_take, List.length_append, List.length_replicate]
    omega
  refine ⟨i, hlen, ?_⟩
  rw [List.getElem_take, List.getElem_append_left (by omega)]
  exact hxe

theorem pad_length {α : Type} (c : List α) (T : ℕ) (y : α) (hT : c.length ≤ T) :
    (List.take T (c ++ List.replicate (T - c.length) y)).length = T := by
  rw [List.length_take, List.length_append, List.length_replicate]
  omega

theorem resizeToPow2_length (cols : List (List Felt)) :
    (resizeToPow2 cols).length = cols.length := by
  simp [resizeToPow2]

theorem drop_take_three (l : List (List Felt)) (i : ℕ) (h : i + 3 ≤ l.length) :
    (l.drop i).take 3 = [l.getD i [], l.getD (i + 1) [], l.getD (i + 2) []] := by
  rw [List.drop_eq_getElem_cons (by omega), List.drop_eq_getElem_cons (by omega),
    List.drop_eq_getElem_cons (by omega)]
  rw [List.getD_eq_getElem _ _ (by omega), List.getD_eq_getElem _ _ (by omega),
    List.getD_eq_getElem _ _ (by omega)]
  rfl

theorem mainColumns_getD_offset (n : ℕ) (s : State) (mem : Memory)
    (hf : s.flags.length = 16) (hr : s.res.length = 1) (hp : s.memP.length = 2)
    (ha : s.memA.length = 4) (hv : s.memV.length = 4) (i : ℕ) (hi : i < 3) :
    (mainColumns n s mem).getD (27 + i) [] = (offsetColumns s).getD i [] := by
  unfold mainColumns
  have hP : (s.flags ++ s.res ++ s.memP ++ memAColumns s mem ++
      memVColumns s mem).length = 27 := by
    simp [hf, hr, hp, memAColumns_length s mem ha, memVColumns_length s mem hv]
  have hY : (s.flags ++ s.res ++ s.memP ++ memAColumns s mem ++ memVColumns s mem ++
      offsetColumns s).length = 30 := by
    rw [List.length_append, hP, offsetColumns_length]
  have hX : (s.flags ++ s.res ++ s.memP ++ memAColumns s mem ++ memVColumns s mem ++
      offsetColumns s ++ [derivedT0 n s, derivedT1 n s, derivedMul n s]).length = 33 := by
    rw [List.length_append, hY]
    rfl
  rw [getD_append_lt _ _ _ _ (by rw [hX]; omega)]
  rw [getD_append_lt _ _ _ _ (by rw [hY]; omega)]
  rw [getD_append_ge _ _ _ _ (by rw [hP]; omega)]
  rw [hP]
  congr 1
  omega

theorem offsetColumns_getD_mem_mainColumns (n : ℕ) (s : State) (mem : Memory)
    (i : ℕ) (hi : i < 3) :
    (offsetColumns s).getD i [] ∈ mainColumns n s mem := by
  unfold mainColumns
  apply List.mem_append_left
  apply List.mem_append_left
  apply List.mem_append_right
  exact toColumnsOne_getD_mem i hi _

theorem toColumn_mem_iff {subcols : List (List Felt)} {x : Felt} :
    x ∈ toColumn subcols ↔
      ∃ n, n < (subcols.headD []).length ∧ ∃ c ∈ subcols, c.getD n 0 = x := by
  simp [toColumn, List.mem_flatMap, List.mem_map, List.mem_range]

/-- Every entry of the offset virtual column read back by
`build_aux_segment_rc` is an entry of the gap-filled offset column, and
conversely. -/
theorem rcVirtualColumn_mem_iff (n : ℕ) (s : State) (mem : Memory) (b : List Builtin)
    (hf : s.flags.length = 16) (hr : s.res.length = 1) (hp : s.memP.length = 2)
    (ha : s.memA.length = 4) (hv : s.memV.length = 4)
    (h3 : 3 ≤ (rcColumnFilled s).length) :
    ∀ x, x ∈ rcVirtualColumn (ExecutionTrace.new n s mem b) ↔
      x ∈ rcColumnFilled s := by
  intro x
  have hlen34 : (mainColumns n s mem).length = 34 := mainColumns_length n s mem hf hr hp ha hv
  have hcols : (ExecutionTrace.new n s mem b).columns =
      resizeToPow2 (mainColumns n s mem) := rfl
  set T := maxPow2Len (mainColumns n s mem) with hTdef
  -- the three padded physical offset columns of the trace
  have hcol : ∀ i, i < 3 → (ExecutionTrace.new n s mem b).columns.getD (27 + i) [] =
      List.take T ((offsetColumns s).getD i [] ++
        List.replicate (T - ((offsetColumns s).getD i []).length)
          (((offsetColumns s).getD i []).getLastD 0)) := by
    intro i hi
    rw [hcols, resizeToPow2_getD _ _ (by rw [hlen34]; omega),
      mainColumns_getD_offset n s mem hf hr hp ha hv i hi]
  have hTi : ∀ i, i < 3 → ((offsetColumns s).getD i []).length ≤ T :=
    fun i hi => length_le_maxPow2Len (offsetColumns_getD_mem_mainColumns n s mem i hi)
  have hpadlen : ∀ i, i < 3 →
      ((ExecutionTrace.new n s mem b).columns.getD (27 + i) []).length = T := by
    intro i hi
    rw [hcol i hi]
    exact pad_length _ _ _ (hTi i hi)
  have hne : ∀ i, i < 3 → (offsetColumns s).getD i [] ≠ [] := by
    intro i hi
    have hiL : i < (rcColumnFilled s).length := by omega
    have := mem_toColumnsOne_getD (k := 3) (by omega) (rcColumnFilled s) i hiL
    rw [Nat.mod_eq_of_lt hi] at this
    exact List.ne_nil_of_mem this
  have hsplit : rcVirtualColumn (ExecutionTrace.new n s mem b) =
      toColumn [(ExecutionTrace.new n s mem b).columns.getD 27 [],
        (ExecutionTrace.new n s mem b).columns.getD 28 [],
        (ExecutionTrace.new n s mem b).columns.getD 29 []] := by
    rw [rcVirtualColumn, drop_take_three _ 27
      (by rw [hcols, resizeToPow2_length, hlen34]; omega)]
  have h0 := hpadlen 0 (by omega)
  rw [Nat.add_zero] at h0
  constructor
  · intro hx
    rw [hsplit, toColumn_mem_iff] at hx
    obtain ⟨m, hm, c, hc, hcx⟩ := hx
    simp only [List.headD] at hm
    rw [List.mem_cons, List.mem_cons, List.mem_singleton] at hc
    have hex : ∃ i, i < 3 ∧ c = (ExecutionTrace.new n s mem b).columns.getD (27 + i) [] := by
      rcases hc with h | h | h
      · exact ⟨0, by omega, by rw [Nat.add_zero]; exact h⟩
      · exact ⟨1, by omega, h⟩
      · exact ⟨2, by omega, h⟩
    obtain ⟨i, hi, rfl⟩ := hex
    have hmi : m < ((ExecutionTrace.new n s mem b).columns.getD (27 + i) []).length := by
      rw [hpadlen i hi, ← h0]
      exact hm
    have hxc : x ∈ (ExecutionTrace.new n s mem b).columns.getD (27 + i) [] := by
      rw [← hcx, List.getD_eq_getElem _ _ hmi]
      exact List.getElem_mem _
    rw [hcol i hi] at hxc
    exact mem_of_mem_toColumnsOne (toColumnsOne_getD_mem i hi _)
      (pad_mem_subset (hne i hi) _ _ hxc)
  · intro hx
    obtain ⟨j, hj, hxe⟩ := List.mem_iff_getElem.mp hx
    have hj3 : j % 3 < 3 := Nat.mod_lt j (by omega)
    have hmem := mem_toColumnsOne_getD (k := 3) (by omega) (rcColumnFilled s) j hj
    rw [hxe] at hmem
    have hxpad : x ∈ (ExecutionTrace.new n s mem b).columns.getD (27 + j % 3) [] := by
      rw [hcol _ hj3]
      exact mem_pad_of_mem hmem _ _ (hTi _ hj3)
    obtain ⟨m, hm, hme⟩ := List.mem_iff_getElem.mp hxpad
    rw [hsplit, toColumn_mem_iff]
    refine ⟨m, ?_, (ExecutionTrace.new n s mem b).columns.getD (27 + j % 3) [], ?_, ?_⟩
    · simp only [List.headD]
      have hj0 := hpadlen _ hj3
      rw [h0, ← hj0]
      exact hm
    · rcases (by omega : j % 3 = 0 ∨ j % 3 = 1 ∨ j % 3 = 2) with h | h | h <;>
        rw [h] <;> simp
    · rw [List.getD_eq_getElem _ _ hm]
      exact hme

-- ===========================================================================
-- C8: the sorted range-check column
-- ===========================================================================

theorem P_large : 2 ^ 16 < P := by
  rw [P]
  norm_num

theorem rcSortedOf_sorted (s : State) : List.Sorted (· ≤ ·) (rcSortedOf s) :=
  List.sorted_insertionSort _ _

theorem rcSortedOf_perm (s : State) :
    (rcSortedOf s).Perm ((rcColumnOf s).map ZMod.val) :=
  List.perm_insertionSort _ _

theorem rcSortedOf_ne_nil (s : State) (hne : rcColumnOf s ≠ []) :
    rcSortedOf s ≠ [] := by
  intro h
  apply hne
  have hlen := (rcSortedOf_perm s).length_eq
  rw [h] at hlen
  simp only [List.length_nil, List.length_map] at hlen
  exact List.length_eq_zero.mp hlen.symm

theorem rcMaxOf_lt (s : State) (hne : rcColumnOf s ≠ [])
    (hval : ∀ x ∈ rcColumnOf s, x.val < 2 ^ 16) : rcMaxOf s < 2 ^ 16 := by
  have hmem := getLastD_mem (rcSortedOf_ne_nil s hne) 0
  have h2 := (rcSortedOf_perm s).mem_iff.mp hmem
  rw [List.mem_map] at h2
  obtain ⟨y, hy, hyv⟩ := h2
  rw [rcMaxOf, ← hyv]
  exact hval y hy

theorem rcColumnFilled_bounds (s : State) (hne : rcColumnOf s ≠ [])
    (hval : ∀ x ∈ rcColumnOf s, x.val < 2 ^ 16) :
    ∀ x ∈ rcColumnFilled s, rcMinOf s ≤ x.val ∧ x.val ≤ rcMaxOf s := by
  intro x hx
  have hsorted := rcSortedOf_sorted s
  have hperm := rcSortedOf_perm s
  rcases List.mem_append.mp hx with h | h
  · have hv : x.val ∈ rcSortedOf s := hperm.mem_iff.mpr (List.mem_map_of_mem _ h)
    exact ⟨sorted_headD_le hsorted hv, sorted_le_getLastD hsorted hv 0⟩
  · rw [List.mem_map] at h
    obtain ⟨k, hk, rfl⟩ := h
    have hb := rcGaps_bounds _ hsorted k hk
    have hkP : k < P :=
      lt_trans (lt_of_le_of_lt hb.2 (rcMaxOf_lt s hne hval)) P_large
    rw [ZMod.val_natCast_of_lt hkP]
    exact hb

theorem rcColumnFilled_complete (s : State) (hne : rcColumnOf s ≠ [])
    (hval : ∀ x ∈ rcColumnOf s, x.val < 2 ^ 16) :
    ∀ k, rcMinOf s ≤ k → k ≤ rcMaxOf s → ∃ x ∈ rcColumnFilled s, x.val = k := by
  intro k hlo hhi
  have hsorted := rcSortedOf_sorted s
  have hperm := rcSortedOf_perm s
  rcases sorted_between_mem _ hsorted (rcSortedOf_ne_nil s hne) k hlo hhi with h | h
  · have h2 := hperm.mem_iff.mp h
    rw [List.mem_map] at h2
    obtain ⟨y, hy, hyv⟩ := h2
    exact ⟨y, List.mem_append_left _ hy, hyv⟩
  · refine ⟨(k : Felt), List.mem_append_right _ (List.mem_map_of_mem _ h), ?_⟩
    have hkP : k < P := lt_trans (lt_of_le_of_lt hhi (rcMaxOf_lt s hne hval)) P_large
    exact ZMod.val_natCast_of_lt hkP

theorem sorted_valLe_headD_le {l : List Felt} (hs : List.Sorted valLe l) {y : Felt}
    (hy : y ∈ l) : (l.headD 0).val ≤ y.val := by
  cases l with
  | nil => cases hy
  | cons a t =>
    rcases List.mem_cons.mp hy with h | h
    · subst h; exact le_rfl
    · exact List.rel_of_sorted_cons hs y h

theorem sorted_valLe_le_getLastD : ∀ {l : List Felt}, List.Sorted valLe l →
    ∀ {y : Felt}, y ∈ l → ∀ (d : Felt), y.val ≤ (l.getLastD d).val
  | [], _, _, hy => absurd hy (List.not_mem_nil _)
  | [a], _, y, hy => fun d => by
      simp at hy
      simp [hy]
  | a :: b :: t, hs, y, hy => fun d => by
      rw [List.getLastD_cons]
      rcases List.mem_cons.mp hy with h | h
      · subst h
        have hb : b.val ≤ ((b :: t).getLastD y).val :=
          sorted_valLe_le_getLastD hs.of_cons (List.mem_cons_self b t) y
        exact le_trans (List.rel_of_sorted_cons hs b (List.mem_cons_self b t)) hb
      · exact sorted_valLe_le_getLastD hs.of_cons h a

theorem val_eq_of_felt_eq {x y : Felt} (h : x.val = y.val) : x = y := by
  have hx : ((x.val : ℕ) : Felt) = x := ZMod.natCast_rightInverse x
  have hy : ((y.val : ℕ) : Felt) = y := ZMod.natCast_rightInverse y
  rw [← hx, ← hy, h]

theorem felt_succ_of_val {x y : Felt} (h : y.val = x.val + 1) : y = x + 1 := by
  have h1 : ((y.val : ℕ) : Felt) = y := ZMod.natCast_rightInverse y
  have h2 : ((x.val : ℕ) : Felt) = x := ZMod.natCast_rightInverse x
  rw [← h1, h, Nat.cast_add, Nat.cast_one, h2]

theorem sorted_dense_chain : ∀ (lv : List ℕ), List.Sorted (· ≤ ·) lv →
    (∀ k, (∃ a ∈ lv, a ≤ k) → (∃ b ∈ lv, k ≤ b) → k ∈ lv) →
    List.Chain' (fun a b => a ≤ b ∧ b ≤ a + 1) lv
  | [], _, _ => List.chain'_nil
  | [_], _, _ => List.chain'_singleton _
  | a :: b :: t, hs, hden => by
      rw [List.chain'_cons]
      constructor
      · refine ⟨List.rel_of_sorted_cons hs b (List.mem_cons_self b t), ?_⟩
        by_contra hcon
        push_neg at hcon
        have hk := hden (a + 1)
          ⟨a, List.mem_cons_self _ _, by omega⟩
          ⟨b, List.mem_cons_of_mem a (List.mem_cons_self b t), by omega⟩
        rcases List.mem_cons.mp hk with h | h
        · omega
        · rcases List.mem_cons.mp h with h2 | h2
          · omega
          · have := List.rel_of_sorted_cons hs.of_cons _ h2
            omega
      · apply sorted_dense_chain (b :: t) hs.of_cons
        intro k hlow hup
        obtain ⟨a2, ha2, hak⟩ := hlow
        obtain ⟨b2, hb2, hkb⟩ := hup
        have hk := hden k ⟨a2, List.mem_cons_of_mem a ha2, hak⟩
          ⟨b2, List.mem_cons_of_mem a hb2, hkb⟩
        rcases List.mem_cons.mp hk with h | h
        · have haa2 : a ≤ a2 := List.rel_of_sorted_cons hs a2 ha2
          have ha2k : a2 = k := by omega
          rw [← ha2k]
          exact ha2
        · exact h

theorem sorted_complete_chain (l : List Felt) (hs : List.Sorted valLe l)
    (lo hi : ℕ) (hbound : ∀ x ∈ l, lo ≤ x.val ∧ x.val ≤ hi)
    (hcomp : ∀ k, lo ≤ k → k ≤ hi → ∃ x ∈ l, x.val = k)
    (hne : l ≠ []) :
    (l.headD 0).val = lo ∧ (l.getLastD 0).val = hi ∧
      List.Chain' (fun x y => y - x = 0 ∨ y - x = 1) l := by
  have hlolehi : lo ≤ hi :=
    le_trans (hbound _ (headD_mem hne 0)).1 (hbound _ (headD_mem hne 0)).2
  have hlo : ∃ x ∈ l, x.val = lo := hcomp lo le_rfl hlolehi
  have hhi : ∃ x ∈ l, x.val = hi := hcomp hi hlolehi le_rfl
  refine ⟨?_, ?_, ?_⟩
  · obtain ⟨x, hx, hxe⟩ := hlo
    have h1 := (hbound _ (headD_mem hne 0)).1
    have h2 : (l.headD 0).val ≤ x.val := sorted_valLe_headD_le hs hx
    omega
  · obtain ⟨x, hx, hxe⟩ := hhi
    have h1 := (hbound _ (getLastD_mem hne 0)).2
    have h2 : x.val ≤ (l.getLastD 0).val := sorted_valLe_le_getLastD hs hx 0
    omega
  · have hsv : List.Sorted (· ≤ ·) (l.map ZMod.val) := by
      rw [List.Sorted, List.pairwise_map]
      exact hs
    have hden : ∀ k, (∃ a ∈ l.map ZMod.val, a ≤ k) →
        (∃ b ∈ l.map ZMod.val, k ≤ b) → k ∈ l.map ZMod.val := by
      intro k hlow hup
      obtain ⟨a2, ha2, hak⟩ := hlow
      obtain ⟨b2, hb2, hkb⟩ := hup
      rw [List.mem_map] at ha2 hb2
      obtain ⟨xa, hxa, rfl⟩ := ha2
      obtain ⟨xb, hxb, rfl⟩ := hb2
      have h1 := (hbound xa hxa).1
      have h2 := (hbound xb hxb).2
      obtain ⟨z, hz, hze⟩ := hcomp k (by omega) (by omega)
      rw [List.mem_map]
      exact ⟨z, hz, hze⟩
    have hchainv := sorted_dense_chain _ hsv hden
    have hchain : List.Chain' (fun x y : Felt => x.val ≤ y.val ∧ y.val ≤ x.val + 1) l :=
      (List.chain'_map _).mp hchainv
    refine hchain.imp ?_
    intro x y hxy
    rcases (by omega : y.val = x.val ∨ y.val = x.val + 1) with hc | hc
    · left
      rw [val_eq_of_felt_eq hc.symm]
      exact sub_self y
    · right
      rw [felt_succ_of_val hc]
      ring

/-- C8: for every built trace whose recorded offsets all have biased values
below `2^16` (the source converts them to `u16`), the sorted range-check
virtual column `a_prime` of `build_aux_segment_rc` starts at `rc_min`, ends
at `rc_max`, and every consecutive difference is 0 or 1: the gap fill
inserted every missing integer between `rc_min` and `rc_max`, and the
power-of-two padding only repeats values already present. -/
theorem rc_sorted_column_chain (n : ℕ) (s : State) (mem : Memory) (b : List Builtin)
    (hf : s.flags.length = 16) (hr : s.res.length = 1) (hp : s.memP.length = 2)
    (ha : s.memA.length = 4) (hv : s.memV.length = 4)
    (ho : 3 ≤ (rcColumnFilled s).length) (hne : rcColumnOf s ≠ [])
    (hval : ∀ x ∈ rcColumnOf s, x.val < 2 ^ 16) :
    (rcAPrime (ExecutionTrace.new n s mem b)).headD 0 =
      (((ExecutionTrace.new n s mem b).rcMin : ℕ) : Felt) ∧
    (rcAPrime (ExecutionTrace.new n s mem b)).getLastD 0 =
      (((ExecutionTrace.new n s mem b).rcMax : ℕ) : Felt) ∧
    List.Chain' (fun x y => y - x = 0 ∨ y - x = 1)
      (rcAPrime (ExecutionTrace.new n s mem b)) := by
  have hmemiff := rcVirtualColumn_mem_iff n s mem b hf hr hp ha hv ho
  have hsorted : List.Sorted valLe (rcAPrime (ExecutionTrace.new n s mem b)) :=
    List.sorted_insertionSort _ _
  have hperm : (rcAPrime (ExecutionTrace.new n s mem b)).Perm
      (rcVirtualColumn (ExecutionTrace.new n s mem b)) :=
    List.perm_insertionSort _ _
  have hbound : ∀ x ∈ rcAPrime (ExecutionTrace.new n s mem b),
      rcMinOf s ≤ x.val ∧ x.val ≤ rcMaxOf s := fun x hx =>
    rcColumnFilled_bounds s hne hval x ((hmemiff x).mp (hperm.mem_iff.mp hx))
  have hcomp : ∀ k, rcMinOf s ≤ k → k ≤ rcMaxOf s →
      ∃ x ∈ rcAPrime (ExecutionTrace.new n s mem b), x.val = k := by
    intro k hklo hkhi
    obtain ⟨x, hx, hxe⟩ := rcColumnFilled_complete s hne hval k hklo hkhi
    exact ⟨x, hperm.mem_iff.mpr ((hmemiff x).mpr hx), hxe⟩
  have hfilledne : rcColumnFilled s ≠ [] := by
    intro hcontra
    rw [hcontra] at ho
    simp at ho
  have hminmax : rcMinOf s ≤ rcMaxOf s := by
    have hb := rcColumnFilled_bounds s hne hval _ (headD_mem hfilledne 0)
    omega
  have hnonempty : rcAPrime (ExecutionTrace.new n s mem b) ≠ [] := by
    obtain ⟨x, hx, _⟩ := hcomp (rcMinOf s) le_rfl hminmax
    exact List.ne_nil_of_mem hx
  obtain ⟨h1, h2, h3⟩ := sorted_complete_chain _ hsorted (rcMinOf s) (rcMaxOf s)
    hbound hcomp hnonempty
  refine ⟨?_, ?_, h3⟩
  · rw [show (ExecutionTrace.new n s mem b).rcMin = rcMinOf s from rfl, ← h1]
    exact (ZMod.natCast_rightInverse _).symm
  · rw [show (ExecutionTrace.new n s mem b).rcMax = rcMaxOf s from rfl, ← h2]
    exact (ZMod.natCast_rightInverse _).symm

theorem ball_val_lt_of_all {l : List Felt} {c : ℕ}
    (h : l.all (fun x => Nat.blt x.val c) = true) : ∀ x ∈ l, x.val < c := by
  intro x hx
  have h2 := List.all_eq_true.mp h x hx
  simpa using h2

set_option maxRecDepth 400000 in
/-- C8 witness: `rc_sorted_column_chain` applied to the concrete one-step
execution of the two-word jump program. -/
theorem rc_sorted_column_chain_witness :
    (stateJmp.flags.length = 16 ∧ stateJmp.res.length = 1 ∧
      stateJmp.memP.length = 2 ∧ stateJmp.memA.length = 4 ∧
      stateJmp.memV.length = 4 ∧ 3 ≤ (rcColumnFilled stateJmp).length ∧
      rcColumnOf stateJmp ≠ [] ∧
      (rcColumnOf stateJmp).all (fun x => Nat.blt x.val (2 ^ 16)) = true) ∧
    ((rcAPrime (ExecutionTrace.new 1 stateJmp memJmp [])).headD 0 =
      (((ExecutionTrace.new 1 stateJmp memJmp []).rcMin : ℕ) : Felt) ∧
    (rcAPrime (ExecutionTrace.new 1 stateJmp memJmp [])).getLastD 0 =
      (((ExecutionTrace.new 1 stateJmp memJmp []).rcMax : ℕ) : Felt) ∧
    List.Chain' (fun x y => y - x = 0 ∨ y - x = 1)
      (rcAPrime (ExecutionTrace.new 1 stateJmp memJmp []))) :=
  ⟨⟨by decide, by decide, by decide, by decide, by decide, by decide, by decide,
      by decide⟩,
    rc_sorted_column_chain 1 stateJmp memJmp [] (by decide) (by decide) (by decide)
      (by decide) (by decide) (by decide) (by decide)
      (ball_val_lt_of_all (by decide))⟩

-- ===========================================================================
-- C10: the range-check running product telescopes to 1
-- ===========================================================================

theorem getLast?_eq_getLastD {α : Type} {l : List α} (h : l ≠ []) (d : α) :
    l.getLast? = some (l.getLastD d) := by
  cases hl : l.getLast? with
  | none =>
    exact absurd (List.getLast?_eq_none_iff.mp hl) h
  | some x =>
    rw [List.getLastD_eq_getLast?, hl]
    rfl

theorem runningProd_getLastD {E : Type} [Field E] (z : E) :
    ∀ (as bs : List E) (acc : E), as.length = bs.length →
      (∀ b ∈ bs, z - b ≠ 0) →
      (runningProd z as bs acc).getLastD acc * (bs.map (fun b => z - b)).prod =
        acc * ((as.map (fun a => z - a)).prod)
  | [], [], acc, _, _ => by simp [runningProd]
  | [], _ :: _, _, h, _ => by simp at h
  | _ :: _, [], _, h, _ => by simp at h
  | a :: as, b :: bs, acc, hlen, hnz => by
      simp only [runningProd, List.getLastD_cons, List.map_cons, List.prod_cons]
      have hb : z - b ≠ 0 := hnz b (List.mem_cons_self b bs)
      have ih := runningProd_getLastD z as bs (acc * (z - a) / (z - b))
        (by simpa using hlen) (fun x hx => hnz x (List.mem_cons_of_mem b hx))
      calc (runningProd z as bs (acc * (z - a) / (z - b))).getLastD
            (acc * (z - a) / (z - b)) * ((z - b) * (bs.map (fun x => z - x)).prod)
          = ((runningProd z as bs (acc * (z - a) / (z - b))).getLastD
              (acc * (z - a) / (z - b)) * (bs.map (fun x => z - x)).prod) * (z - b) := by
            ring
        _ = (acc * (z - a) / (z - b) * (as.map (fun x => z - x)).prod) * (z - b) := by
            rw [ih]
        _ = acc * ((z - a) * (as.map (fun x => z - x)).prod) := by
            field_simp
            ring

theorem runningProd_ne_nil {E : Type} [Field E] (z : E) (a as b bs : List E)
    (x y : E) (acc : E) (ha : a = x :: as) (hb : b = y :: bs) :
    runningProd z a b acc ≠ [] := by
  rw [ha, hb, runningProd]
  exact List.cons_ne_nil _ _

/-- C10: for every built trace and every random element `z` whose image is
distinct from all (images of) values of the offset virtual column, the last
entry of the range-check running-product virtual column built by
`build_aux_segment_rc` equals 1: the sorted column is a permutation of the
original column, so the product telescopes to the ratio of two equal
products. -/
theorem rc_product_last_one {E : Type} [Field E] (φ : Felt → E) (z : E)
    (t : ExecutionTrace) (hne : rcVirtualColumn t ≠ [])
    (hz : ∀ x ∈ rcVirtualColumn t, z ≠ φ x) :
    (rcProductColumn φ z t).getLast? = some 1 := by
  have hperm : (rcAPrime t).Perm (rcVirtualColumn t) := List.perm_insertionSort _ _
  have hpermE : ((rcAPrime t).map φ).Perm ((rcVirtualColumn t).map φ) := hperm.map φ
  have hlen : ((rcVirtualColumn t).map φ).length = ((rcAPrime t).map φ).length :=
    hpermE.length_eq.symm
  have hnz : ∀ b ∈ (rcAPrime t).map φ, z - b ≠ 0 := by
    intro b hb
    have hb2 : b ∈ (rcVirtualColumn t).map φ := hpermE.mem_iff.mp hb
    rw [List.mem_map] at hb2
    obtain ⟨x, hx, rfl⟩ := hb2
    intro hzero
    exact hz x hx (by rwa [sub_eq_zero] at hzero)
  have hkey := runningProd_getLastD z ((rcVirtualColumn t).map φ)
    ((rcAPrime t).map φ) 1 hlen hnz
  have hprodeq : (((rcAPrime t).map φ).map (fun b => z - b)).prod =
      (((rcVirtualColumn t).map φ).map (fun b => z - b)).prod :=
    (hpermE.map _).prod_eq
  have hprodne : (((rcAPrime t).map φ).map (fun b => z - b)).prod ≠ 0 := by
    apply List.prod_ne_zero
    intro hx0
    rw [List.mem_map] at hx0
    obtain ⟨y, hy, hy0⟩ := hx0
    exact hnz y hy hy0
  have hA : (((rcVirtualColumn t).map φ).map (fun b => z - b)).prod ≠ 0 := by
    rw [← hprodeq]
    exact hprodne
  have hlast1 : (runningProd z ((rcVirtualColumn t).map φ)
      ((rcAPrime t).map φ) 1).getLastD 1 = 1 := by
    rw [hprodeq, one_mul] at hkey
    exact mul_right_cancel₀ hA (hkey.trans (one_mul _).symm)
  have hrne : runningProd z ((rcVirtualColumn t).map φ)
      ((rcAPrime t).map φ) 1 ≠ [] := by
    cases hc : (rcVirtualColumn t).map φ with
    | nil =>
      rw [List.map_eq_nil_iff] at hc
      exact absurd hc hne
    | cons x xs =>
      cases hc2 : (rcAPrime t).map φ with
      | nil =>
        rw [hc, hc2] at hlen
        simp at hlen
      | cons y ys =>
        exact runningProd_ne_nil z _ xs _ ys x y 1 rfl rfl
  rw [rcProductColumn, getLast?_eq_getLastD hrne 1, hlast1]

set_option maxRecDepth 400000 in
/-- C10 witness: `rc_product_last_one` applied to the trace of the concrete
one-step execution, over the field with 101 elements, with the base field
mapped through canonical values and `z = 7` (distinct from the three images
43, 44, 45 of the biased offsets). -/
theorem rc_product_last_one_witness :
    (rcVirtualColumn (ExecutionTrace.new 1 stateJmp memJmp []) ≠ [] ∧
      (rcVirtualColumn (ExecutionTrace.new 1 stateJmp memJmp [])).all
        (fun x => !((7 : ZMod 101) == ((x.val : ℕ) : ZMod 101))) = true) ∧
    (rcProductColumn (fun x : Felt => ((x.val : ℕ) : ZMod 101)) (7 : ZMod 101)
      (ExecutionTrace.new 1 stateJmp memJmp [])).getLast? = some 1 :=
  ⟨⟨by decide, by decide⟩,
    rc_product_last_one (fun x : Felt => ((x.val : ℕ) : ZMod 101)) 7
      (ExecutionTrace.new 1 stateJmp memJmp []) (by decide)
      (fun x hx h => by
        have h2 := List.all_eq_true.mp (by decide :
          (rcVirtualColumn (ExecutionTrace.new 1 stateJmp memJmp [])).all
            (fun x => !((7 : ZMod 101) == ((x.val : ℕ) : ZMod 101))) = true) x hx
        exact absurd h (by simpa using h2))⟩

end Giza
